import Mathlib

/-!
Verification of the bricked volume partitioning engine of flyemflows /
DVIDSparkServices.

This file is a shallow embedding of the core geometry and brick-shuffling
code of the repository:

* `DVIDSparkServices/io_util/brick.py` (Grid, Brick, boxes_from_grid,
  clipped_boxes_from_grid, split_brick, assemble_brick_fragments,
  realign_bricks_to_new_grid, pad_brick_data_from_volume_source,
  generate_bricks_from_volume_source, apply_labelmap_to_bricks),
* `DVIDSparkServices/reconutils/Segmentor.py` (the stitching engine:
  overlap voting, merge-list construction, the global merge resolution
  loop and the final relabel),
* `flyemflows/util/util.py` (downsample).

Coordinates are ZYX triples of integers, modelled as functions `Fin 3 → ℤ`.
numpy arrays holding voxel data are modelled as a `Vol`: an explicit shape
together with a total data function (entries outside the shape are junk and
are never relied upon).  Python `//` and `%` on integers are floor division
and floor modulus, so they are modelled with `Int.fdiv` / `Int.fmod`.
Python `assert` failures and raised exceptions are modelled by `Option` /
`Except` results.
-/

namespace Flyem

/-- A ZYX coordinate triple (index 0 = z, 1 = y, 2 = x). -/
abbrev Coord := Fin 3 → ℤ

/-- A box `[start, stop)`, stored as the pair `(box[0], box[1])`,
exactly as the 2×3 ndarrays used throughout `brick.py`. -/
abbrev Box := Coord × Coord

/-- `p` lies inside the half-open box `b`. -/
def inBox (p : Coord) (b : Box) : Prop :=
  ∀ i, b.1 i ≤ p i ∧ p i < b.2 i

instance (p : Coord) (b : Box) : Decidable (inBox p b) := by
  unfold inBox; infer_instance

/-- Subtract a coordinate from both rows of a box
(`box - vector` in numpy broadcasting). -/
def Box.sub (b : Box) (v : Coord) : Box :=
  (fun i => b.1 i - v i, fun i => b.2 i - v i)

/-- Add a coordinate to both rows of a box (`box + vector` in numpy). -/
def Box.add (b : Box) (v : Coord) : Box :=
  (fun i => b.1 i + v i, fun i => b.2 i + v i)

/-- Modelled from the spec: `box_intersection(a, b)` from
`DVIDSparkServices.util` (the util module itself is not in the provided
sources).  "componentwise max of starts, componentwise min of stops". -/
def box_intersection (a b : Box) : Box :=
  (fun i => max (a.1 i) (b.1 i), fun i => min (a.2 i) (b.2 i))

/-- A numpy voxel array: its shape and its contents.  The data function is
total; only the entries inside `[0, shape)` are meaningful. -/
structure Vol where
  shape : Coord
  data : Coord → ℤ

/-- `np.zeros(shape)`. -/
def np_zeros (shape : Coord) : Vol :=
  ⟨shape, fun _ => 0⟩

/-- Modelled from the spec: `extract_subvol(volume, box)` from
`DVIDSparkServices.util`: a copy of `volume[box[0]:box[1]]`
(shape `box[1]-box[0]`, entry `q` holding `volume[box[0]+q]`). -/
def extract_subvol (v : Vol) (b : Box) : Vol :=
  ⟨fun i => b.2 i - b.1 i, fun q => v.data (fun i => b.1 i + q i)⟩

/-- Modelled from the spec: `overwrite_subvol(dest, box, src)` from
`DVIDSparkServices.util`: writes `src` into `dest[box[0]:box[1]]`
(in place in Python; functionally here). -/
def overwrite_subvol (dest : Vol) (b : Box) (src : Vol) : Vol :=
  ⟨dest.shape,
   fun q => if inBox q b then src.data (fun i => q i - b.1 i) else dest.data q⟩

/-- `Grid` from `brick.py`: a block shape and an offset for the first
block of the grid. -/
structure Grid where
  block_shape : Coord
  offset : Coord

/-- `Grid.modulus_offset`, computed in `Grid.__init__` as
`offset % block_shape` (floor modulus, as in numpy). -/
def Grid.modulus_offset (g : Grid) : Coord :=
  fun i => (g.offset i).fmod (g.block_shape i)

/-- `Brick` from `brick.py`: a logical box (the full grid block), a
physical box (the region its data occupies) and the voxel data.
Both boxes are in global coordinates. -/
structure Brick where
  logical_box : Box
  physical_box : Box
  volume : Vol

/-- The integrity assertions of `Brick.__init__`:
`physical_box[0] >= logical_box[0]`, `physical_box[1] <= logical_box[1]`
and `volume.shape == physical_box[1] - physical_box[0]`. -/
def Brick.wf (b : Brick) : Prop :=
  (∀ i, b.logical_box.1 i ≤ b.physical_box.1 i) ∧
  (∀ i, b.physical_box.2 i ≤ b.logical_box.2 i) ∧
  (∀ i, b.volume.shape i = b.physical_box.2 i - b.physical_box.1 i)

instance (b : Brick) : Decidable b.wf := by
  unfold Brick.wf; infer_instance

/-- The value a brick holds at global coordinate `p`
(`brick.volume[p - physical_box[0]]`). -/
def brickValueAt (b : Brick) (p : Coord) : ℤ :=
  b.volume.data (fun i => p i - b.physical_box.1 i)

/-- Global coordinate `p` carries data of brick `b`
(it lies in the brick's physical box). -/
def coveredBy (b : Brick) (p : Coord) : Prop :=
  inBox p b.physical_box

instance (b : Brick) (p : Coord) : Decidable (coveredBy b p) := by
  unfold coveredBy; infer_instance

/-- Modelled from the spec: one axis of `ndrange(start, stop, step)` from
`DVIDSparkServices.util` — the arithmetic sequence
`start, start+step, ...` of length `ceil((stop-start)/step)`
(Python `range(start, stop, step)` for positive step). -/
def rangeL (start stop step : ℤ) : List ℤ :=
  (List.range ((stop - start + step - 1).fdiv step).toNat).map
    (fun n : ℕ => start + (n : ℤ) * step)

/-- Modelled from the spec: `ndrange(start, stop, step)` from
`DVIDSparkServices.util` — all coordinates of the integer lattice between
`start` and `stop` with the given steps, in lexicographic ZYX order. -/
def ndrange (start stop step : Coord) : List Coord :=
  (rangeL (start 0) (stop 0) (step 0)).flatMap (fun z =>
    (rangeL (start 1) (stop 1) (step 1)).flatMap (fun y =>
      (rangeL (start 2) (stop 2) (step 2)).map (fun x => ![z, y, x])))

/-- `_boxes_from_grid_no_offset(bounding_box, block_shape)` from `brick.py`:
all grid-aligned (at the origin) blocks that intersect the bounding box.
`aligned_start` rounds the start down to the block shape, `aligned_stop`
rounds the stop up. -/
def _boxes_from_grid_no_offset (bounding_box : Box) (block_shape : Coord) :
    List Box :=
  let aligned_start : Coord :=
    fun i => (bounding_box.1 i).fdiv (block_shape i) * block_shape i
  let aligned_stop : Coord :=
    fun i =>
      ((bounding_box.2 i + block_shape i - 1).fdiv (block_shape i)) *
        block_shape i
  (ndrange aligned_start aligned_stop block_shape).map
    (fun block_start => (block_start, fun i => block_start i + block_shape i))

/-- `boxes_from_grid(bounding_box, grid)` from `brick.py`: all blocks of
the grid that intersect the bounding box (not clipped to it).  The code
takes a shortcut when the grid offset is zero; otherwise it shifts the
bounding box, enumerates, and shifts the blocks back. -/
def boxes_from_grid (bounding_box : Box) (grid : Grid) : List Box :=
  if ∀ i, grid.offset i = 0 then
    _boxes_from_grid_no_offset bounding_box grid.block_shape
  else
    (_boxes_from_grid_no_offset (bounding_box.sub grid.offset)
        grid.block_shape).map
      (fun box => box.add grid.offset)

/-- `clipped_boxes_from_grid(bounding_box, grid)` from `brick.py`:
same blocks, each intersected with the bounding box. -/
def clipped_boxes_from_grid (bounding_box : Box) (grid : Grid) : List Box :=
  (boxes_from_grid bounding_box grid).map
    (fun box => box_intersection box bounding_box)

/-! ### Geometry lemmas: characterizing the enumerated grid blocks -/

/-- `L` is a block of grid `g`: its start is grid aligned and it spans one
block shape. -/
def isGridBlock (g : Grid) (L : Box) : Prop :=
  ∀ i, (L.1 i - g.offset i) % g.block_shape i = 0 ∧
       L.2 i = L.1 i + g.block_shape i

instance (g : Grid) (L : Box) : Decidable (isGridBlock g L) := by
  unfold isGridBlock; infer_instance

/-- `L` meets the bounding box `bb` on every axis. -/
def blockIntersects (bb : Box) (L : Box) : Prop :=
  ∀ i, L.1 i < bb.2 i ∧ bb.1 i < L.2 i

theorem coord_eta (p : Coord) : ![p 0, p 1, p 2] = p := by
  funext i
  fin_cases i <;> rfl

theorem lt_ceilDiv_iff {k b s : ℤ} (hs : 0 < s) :
    k < (b + s - 1) / s ↔ k * s < b := by
  rw [Int.lt_iff_add_one_le, Int.le_ediv_iff_mul_le hs]
  constructor <;> intro h <;> nlinarith

theorem ediv_le_iff {k b s : ℤ} (hs : 0 < s) :
    b / s ≤ k ↔ b < (k + 1) * s := by
  constructor
  · intro h
    calc b < (b / s + 1) * s := Int.lt_ediv_add_one_mul_self b hs
      _ ≤ (k + 1) * s := by
          apply mul_le_mul_of_nonneg_right _ (le_of_lt hs)
          omega
  · intro h
    by_contra hc
    push_neg at hc
    have := (Int.le_ediv_iff_mul_le hs).mp (by omega : k + 1 ≤ b / s)
    omega

theorem mem_rangeL_aligned {s : ℤ} (hs : 0 < s) (A B t : ℤ) :
    t ∈ rangeL (A * s) (B * s) s ↔ ∃ k : ℤ, A ≤ k ∧ k < B ∧ t = k * s := by
  have hlen : B * s - A * s + s - 1 = (s - 1) + s * (B - A) := by ring
  have hdiv : ((s - 1) + s * (B - A)) / s = B - A := by
    rw [Int.add_mul_ediv_left _ _ (by omega : s ≠ 0),
        Int.ediv_eq_zero_of_lt (by omega) (by omega)]
    ring
  unfold rangeL
  rw [Int.fdiv_eq_ediv _ (le_of_lt hs), hlen, hdiv]
  constructor
  · intro ht
    simp only [List.mem_map, List.mem_range] at ht
    obtain ⟨n, hn, ht⟩ := ht
    refine ⟨A + n, by omega, by omega, by rw [← ht]; ring⟩
  · rintro ⟨k, hA, hB, rfl⟩
    simp only [List.mem_map, List.mem_range]
    refine ⟨(k - A).toNat, by omega, ?_⟩
    rw [Int.toNat_of_nonneg (by omega)]
    ring

theorem mem_ndrange {a b s : Coord} {p : Coord} :
    p ∈ ndrange a b s ↔ ∀ i, p i ∈ rangeL (a i) (b i) (s i) := by
  simp only [ndrange, List.mem_flatMap, List.mem_map]
  constructor
  · rintro ⟨z, hz, y, hy, x, hx, rfl⟩ i
    fin_cases i <;> simpa
  · intro h
    exact ⟨p 0, h 0, p 1, h 1, p 2, h 2, coord_eta p⟩

theorem mem_boxes_no_offset {bb : Box} {s : Coord} (hs : ∀ i, 0 < s i)
    {L : Box} :
    L ∈ _boxes_from_grid_no_offset bb s ↔
      (∀ i, (L.1 i) % (s i) = 0 ∧ L.2 i = L.1 i + s i ∧
            L.1 i < bb.2 i ∧ bb.1 i < L.1 i + s i) := by
  simp only [_boxes_from_grid_no_offset, List.mem_map]
  constructor
  · rintro ⟨bs, hbs, rfl⟩
    intro i
    dsimp only
    rw [mem_ndrange] at hbs
    have h := hbs i
    rw [show (bb.1 i).fdiv (s i) * s i = (bb.1 i / s i) * s i by
          rw [Int.fdiv_eq_ediv _ (le_of_lt (hs i))],
        show ((bb.2 i + s i - 1).fdiv (s i)) * s i =
             ((bb.2 i + s i - 1) / s i) * s i by
          rw [Int.fdiv_eq_ediv _ (le_of_lt (hs i))],
        mem_rangeL_aligned (hs i)] at h
    obtain ⟨k, hA, hB, hk⟩ := h
    refine ⟨by rw [hk]; exact Int.mul_emod_left k (s i), rfl, ?_, ?_⟩
    · rw [hk]
      exact (lt_ceilDiv_iff (hs i)).mp hB
    · rw [hk]
      calc bb.1 i < (k + 1) * s i := (ediv_le_iff (hs i)).mp hA
        _ = k * s i + s i := by ring
  · intro h
    refine ⟨L.1, ?_, ?_⟩
    · rw [mem_ndrange]
      intro i
      obtain ⟨hmod, _, hlt, hgt⟩ := h i
      rw [show (bb.1 i).fdiv (s i) * s i = (bb.1 i / s i) * s i by
            rw [Int.fdiv_eq_ediv _ (le_of_lt (hs i))],
          show ((bb.2 i + s i - 1).fdiv (s i)) * s i =
               ((bb.2 i + s i - 1) / s i) * s i by
            rw [Int.fdiv_eq_ediv _ (le_of_lt (hs i))],
          mem_rangeL_aligned (hs i)]
      obtain ⟨k, hk⟩ := Int.dvd_of_emod_eq_zero hmod
      refine ⟨k, ?_, ?_, by rw [hk]; ring⟩
      · rw [ediv_le_iff (hs i)]
        calc bb.1 i < L.1 i + s i := hgt
          _ = (k + 1) * s i := by rw [show L.1 i = s i * k from hk]; ring
      · rw [lt_ceilDiv_iff (hs i)]
        calc k * s i = L.1 i := by rw [show L.1 i = s i * k from hk]; ring
          _ < bb.2 i := hlt
    · refine Prod.ext rfl ?_
      funext i
      exact ((h i).2.1).symm

theorem boxes_from_grid_eq (bb : Box) (g : Grid) :
    boxes_from_grid bb g =
      (_boxes_from_grid_no_offset (bb.sub g.offset) g.block_shape).map
        (fun box => box.add g.offset) := by
  unfold boxes_from_grid
  split_ifs with h
  · have h1 : bb.sub g.offset = bb := by
      apply Prod.ext <;> funext i <;> simp [Box.sub, h i]
    have h2 : (fun box : Box => box.add g.offset) = id := by
      funext box
      apply Prod.ext <;> funext i <;> simp [Box.add, h i]
    rw [h1, h2, List.map_id]
  · rfl

theorem mem_boxes_from_grid {bb : Box} {g : Grid}
    (hs : ∀ i, 0 < g.block_shape i) {L : Box} :
    L ∈ boxes_from_grid bb g ↔ isGridBlock g L ∧ blockIntersects bb L := by
  rw [boxes_from_grid_eq, List.mem_map]
  constructor
  · rintro ⟨L', hL', rfl⟩
    rw [mem_boxes_no_offset hs] at hL'
    constructor
    · intro i
      obtain ⟨hmod, hspan, _, _⟩ := hL' i
      dsimp only [Box.add]
      refine ⟨by simpa using hmod, by rw [hspan]; ring⟩
    · intro i
      obtain ⟨_, _, hlt, hgt⟩ := hL' i
      dsimp only [Box.add]
      dsimp only [Box.sub] at hlt hgt
      omega
  · rintro ⟨hblk, hint⟩
    refine ⟨L.sub g.offset, ?_, ?_⟩
    · rw [mem_boxes_no_offset hs]
      intro i
      obtain ⟨hmod, hspan⟩ := hblk i
      obtain ⟨hlt, hgt⟩ := hint i
      dsimp only [Box.sub]
      refine ⟨hmod, by rw [hspan]; ring, by omega, by omega⟩
    · refine Prod.ext ?_ ?_ <;> funext i <;> simp [Box.sub, Box.add]

theorem nodup_rangeL {a b s : ℤ} (hs : 0 < s) : (rangeL a b s).Nodup := by
  unfold rangeL
  apply List.Nodup.map _ (List.nodup_range _)
  intro n m h
  dsimp only at h
  have h2 : (n : ℤ) * s = (m : ℤ) * s := by omega
  have h3 := mul_right_cancel₀ (by omega : s ≠ 0) h2
  exact_mod_cast h3

theorem nodup_ndrange {a b s : Coord} (hs : ∀ i, 0 < s i) :
    (ndrange a b s).Nodup := by
  unfold ndrange
  rw [List.nodup_flatMap]
  constructor
  · intro z _
    rw [List.nodup_flatMap]
    constructor
    · intro y _
      apply List.Nodup.map _ (nodup_rangeL (hs 2))
      intro x1 x2 h
      have h2 := congrFun h 2
      simpa using h2
    · refine List.Pairwise.imp_of_mem ?_ (nodup_rangeL (hs 1))
      intro y1 y2 _ _ hne
      intro v hv1 hv2
      simp only [Function.onFun, List.mem_map] at hv1 hv2
      obtain ⟨x1, _, rfl⟩ := hv1
      obtain ⟨x2, _, h12⟩ := hv2
      have h3 := congrFun h12 1
      simp at h3
      exact hne h3.symm
  · refine List.Pairwise.imp_of_mem ?_ (nodup_rangeL (hs 0))
    intro z1 z2 _ _ hne
    intro v hv1 hv2
    simp only [Function.onFun, List.mem_flatMap, List.mem_map] at hv1 hv2
    obtain ⟨y1, _, x1, _, rfl⟩ := hv1
    obtain ⟨y2, _, x2, _, h12⟩ := hv2
    have h3 := congrFun h12 0
    simp at h3
    exact hne h3.symm

theorem nodup_boxes_from_grid {bb : Box} {g : Grid}
    (hs : ∀ i, 0 < g.block_shape i) : (boxes_from_grid bb g).Nodup := by
  rw [boxes_from_grid_eq]
  apply List.Nodup.map
  · intro b1 b2 h
    apply Prod.ext <;> funext i
    · have := congrFun (congrArg Prod.fst h) i
      simp only [Box.add] at this
      omega
    · have := congrFun (congrArg Prod.snd h) i
      simp only [Box.add] at this
      omega
  · unfold _boxes_from_grid_no_offset
    apply List.Nodup.map
    · intro b1 b2 h
      exact congrArg Prod.fst h
    · exact nodup_ndrange hs

/-- The unique block of grid `g` containing coordinate `p`. -/
def blockContaining (g : Grid) (p : Coord) : Box :=
  (fun i => g.offset i +
      ((p i - g.offset i) / (g.block_shape i)) * g.block_shape i,
   fun i => g.offset i +
      ((p i - g.offset i) / (g.block_shape i)) * g.block_shape i +
        g.block_shape i)

theorem blockContaining_isGridBlock {g : Grid} (p : Coord) :
    isGridBlock g (blockContaining g p) := by
  intro i
  refine ⟨?_, rfl⟩
  simp only [blockContaining]
  have : g.offset i + (p i - g.offset i) / g.block_shape i * g.block_shape i -
      g.offset i = (p i - g.offset i) / g.block_shape i * g.block_shape i := by
    ring
  rw [this]
  exact Int.mul_emod_left _ _

theorem mem_blockContaining {g : Grid} (hs : ∀ i, 0 < g.block_shape i)
    (p : Coord) : inBox p (blockContaining g p) := by
  intro i
  simp only [blockContaining]
  constructor
  · have := Int.ediv_mul_le (p i - g.offset i)
      (by have := hs i; omega : g.block_shape i ≠ 0)
    omega
  · have := Int.lt_ediv_add_one_mul_self (p i - g.offset i) (hs i)
    nlinarith [this]

theorem gridBlock_eq_blockContaining {g : Grid}
    (hs : ∀ i, 0 < g.block_shape i) {L : Box} {p : Coord}
    (hL : isGridBlock g L) (hp : inBox p L) : L = blockContaining g p := by
  have key : ∀ i, L.1 i = g.offset i +
      ((p i - g.offset i) / g.block_shape i) * g.block_shape i := by
    intro i
    obtain ⟨hmod, hspan⟩ := hL i
    obtain ⟨hlo, hhi⟩ := hp i
    rw [hspan] at hhi
    obtain ⟨k, hk⟩ := Int.dvd_of_emod_eq_zero hmod
    have hck : k * g.block_shape i = L.1 i - g.offset i := by
      rw [hk]; ring
    have hdiv : (p i - g.offset i) / g.block_shape i = k := by
      have h1 : k ≤ (p i - g.offset i) / g.block_shape i := by
        rw [Int.le_ediv_iff_mul_le (hs i), hck]
        omega
      have h2 : (p i - g.offset i) / g.block_shape i ≤ k := by
        rw [ediv_le_iff (hs i)]
        have hck1 : (k + 1) * g.block_shape i =
            L.1 i - g.offset i + g.block_shape i := by
          rw [hk]; ring
        rw [hck1]
        omega
      omega
    rw [hdiv]
    omega
  refine Prod.ext ?_ ?_
  · funext i
    exact key i
  · funext i
    rw [(hL i).2, key i]
    dsimp only [blockContaining]

theorem gridBlocks_eq_of_shared {g : Grid} (hs : ∀ i, 0 < g.block_shape i)
    {L1 L2 : Box} {p : Coord} (h1 : isGridBlock g L1) (h2 : isGridBlock g L2)
    (hp1 : inBox p L1) (hp2 : inBox p L2) : L1 = L2 := by
  rw [gridBlock_eq_blockContaining hs h1 hp1,
      gridBlock_eq_blockContaining hs h2 hp2]

theorem inBox_inter {p : Coord} {a b : Box} :
    inBox p (box_intersection a b) ↔ inBox p a ∧ inBox p b := by
  simp only [inBox, box_intersection, max_le_iff, lt_min_iff]
  constructor
  · intro h
    exact ⟨fun i => ⟨(h i).1.1, (h i).2.1⟩, fun i => ⟨(h i).1.2, (h i).2.2⟩⟩
  · intro h i
    exact ⟨⟨(h.1 i).1, (h.2 i).1⟩, ⟨(h.1 i).2, (h.2 i).2⟩⟩

/-- Example inputs used by the witnesses below: the box `[0,5)³` and a
grid of 2³ blocks offset by 1. -/
def bbSample : Box := (fun _ => 0, fun _ => 5)

def gridSample : Grid := ⟨fun _ => 2, fun _ => 1⟩

/-- C2: Grid partitioning is a tiling — for every box `B` with
`start <= stop` componentwise and every grid `G` with positive
`block_shape`, the boxes yielded by `clipped_boxes_from_grid(B, G)` are
pairwise disjoint and their union equals `B`. -/
theorem clipped_boxes_from_grid_tiling (bb : Box) (g : Grid)
    (hbb : ∀ i, bb.1 i ≤ bb.2 i) (hs : ∀ i, 0 < g.block_shape i) :
    (clipped_boxes_from_grid bb g).Pairwise
      (fun b1 b2 => ∀ p, ¬(inBox p b1 ∧ inBox p b2)) ∧
    (∀ p, (∃ b ∈ clipped_boxes_from_grid bb g, inBox p b) ↔ inBox p bb) := by
  constructor
  · unfold clipped_boxes_from_grid
    rw [List.pairwise_map]
    refine List.Pairwise.imp_of_mem ?_ (nodup_boxes_from_grid hs)
    intro L1 L2 h1 h2 hne p hp
    obtain ⟨hp1, hp2⟩ := hp
    have hL1 := ((mem_boxes_from_grid hs).mp h1).1
    have hL2 := ((mem_boxes_from_grid hs).mp h2).1
    obtain ⟨hpL1, _⟩ := inBox_inter.mp hp1
    obtain ⟨hpL2, _⟩ := inBox_inter.mp hp2
    exact hne (gridBlocks_eq_of_shared hs hL1 hL2 hpL1 hpL2)
  · intro p
    constructor
    · rintro ⟨b, hb, hp⟩
      unfold clipped_boxes_from_grid at hb
      rw [List.mem_map] at hb
      obtain ⟨L, _, rfl⟩ := hb
      exact (inBox_inter.mp hp).2
    · intro hp
      refine ⟨box_intersection (blockContaining g p) bb, ?_, ?_⟩
      · unfold clipped_boxes_from_grid
        rw [List.mem_map]
        refine ⟨blockContaining g p, ?_, rfl⟩
        rw [mem_boxes_from_grid hs]
        refine ⟨blockContaining_isGridBlock p, fun i => ?_⟩
        have h1 := (mem_blockContaining hs p) i
        have h2 := hp i
        omega
      · exact inBox_inter.mpr ⟨mem_blockContaining hs p, hp⟩

theorem clipped_boxes_from_grid_tiling_witness :
    (∀ i, bbSample.1 i ≤ bbSample.2 i) ∧
    (∀ i, 0 < gridSample.block_shape i) ∧
    ((clipped_boxes_from_grid bbSample gridSample).Pairwise
        (fun b1 b2 => ∀ p, ¬(inBox p b1 ∧ inBox p b2)) ∧
      (∀ p, (∃ b ∈ clipped_boxes_from_grid bbSample gridSample, inBox p b) ↔
        inBox p bbSample)) :=
  ⟨by decide, by decide,
   clipped_boxes_from_grid_tiling bbSample gridSample (by decide) (by decide)⟩

/-! ### The brick operations of `brick.py` -/

/-- `generate_bricks_from_volume_source(bounding_box, grid,
volume_accessor_func, ...)`: one brick per grid block touching the
bounding box; the physical box is `box_intersection(box, bounding_box)`
and the volume is fetched from the accessor for that physical box.
(The Spark partitioning plumbing — `sc.parallelize`, `map_partitions`,
`repartition` — only distributes this same per-block construction.) -/
def generate_bricks_from_volume_source (bounding_box : Box) (grid : Grid)
    (volume_accessor_func : Box → Vol) : List Brick :=
  (boxes_from_grid bounding_box grid).map (fun box =>
    Brick.mk box (box_intersection box bounding_box)
      (volume_accessor_func (box_intersection box bounding_box)))

/-- `split_brick(new_grid, original_brick)`: chop a brick along the blocks
of `new_grid` that intersect its physical box.  Each fragment is keyed by
the new logical box it belongs to.  (`box_as_tuple` in the source only
converts the key to a hashable tuple; the key content is the box itself.) -/
def split_brick (new_grid : Grid) (original_brick : Brick) :
    List (Box × Brick) :=
  (boxes_from_grid original_brick.physical_box new_grid).map
    (fun new_logical_box =>
      let split_box :=
        box_intersection new_logical_box original_brick.physical_box
      let split_box_internal := split_box.sub original_brick.physical_box.1
      let fragment_vol := extract_subvol original_brick.volume split_box_internal
      (new_logical_box, Brick.mk new_logical_box split_box fragment_vol))

/-- `rt.group_by_key`: group a keyed collection by key.  Spark's
`groupByKey` is modelled deterministically: one group per distinct key (in
first-appearance order), holding that key's values in collection order. -/
def group_by_key (pairs : List (Box × Brick)) : List (Box × List Brick) :=
  ((pairs.map Prod.fst).dedup).map
    (fun k => (k, (pairs.filter (fun kv => kv.1 = k)).map Prod.snd))

/-- The fragment-start hull: `np.min` of all fragment physical starts
(`fragments = f0 :: rest`). -/
def hullStart (f0 : Brick) (rest : List Brick) : Coord :=
  rest.foldl (fun acc f => fun i => min (acc i) (f.physical_box.1 i))
    f0.physical_box.1

/-- The fragment-stop hull: `np.max` of all fragment physical stops. -/
def hullStop (f0 : Brick) (rest : List Brick) : Coord :=
  rest.foldl (fun acc f => fun i => max (acc i) (f.physical_box.2 i))
    f0.physical_box.2

/-- The overwrite loop of `assemble_brick_fragments`: each fragment is
blitted into the output buffer at `frag.physical_box - final_start`. -/
def assembleFoldVol (final_start : Coord) (fragments : List Brick)
    (v0 : Vol) : Vol :=
  fragments.foldl
    (fun vol frag =>
      overwrite_subvol vol (frag.physical_box.sub final_start) frag.volume)
    v0

/-- `assemble_brick_fragments(fragments)`: splice fragments with identical
logical boxes into one brick whose physical box is the min/max hull of the
fragment physical boxes; the buffer starts zeroed and each fragment is
overwritten at its relative offset.  Python raises (`IndexError` /
`AssertionError`) on an empty list, on disagreeing logical boxes, and when
the hull leaves the logical box; those paths return `none`. -/
def assemble_brick_fragments (fragments : List Brick) : Option Brick :=
  match fragments with
  | [] => none
  | f0 :: rest =>
    if ∀ f ∈ f0 :: rest, f.logical_box = f0.logical_box then
      let final_logical_box := f0.logical_box
      let final_physical_box : Box := (hullStart f0 rest, hullStop f0 rest)
      if (∀ i, final_logical_box.1 i ≤ final_physical_box.1 i) ∧
         (∀ i, final_physical_box.2 i ≤ final_logical_box.2 i) then
        let final_volume_shape : Coord :=
          fun i => final_physical_box.2 i - final_physical_box.1 i
        let final_volume :=
          assembleFoldVol final_physical_box.1 (f0 :: rest)
            (np_zeros final_volume_shape)
        some (Brick.mk final_logical_box final_physical_box final_volume)
      else none
    else none

/-- `realign_bricks_to_new_grid(new_grid, original_bricks)`:
split every brick over the new grid, group the fragments by their new
logical box, and assemble each group.  Any exception raised while
assembling fails the whole job (`none`). -/
def realign_bricks_to_new_grid (new_grid : Grid)
    (original_bricks : List Brick) : Option (List (Box × Brick)) :=
  let new_logical_boxes_and_brick_fragments :=
    original_bricks.flatMap (split_brick new_grid)
  let grouped_brick_fragments :=
    group_by_key new_logical_boxes_and_brick_fragments
  grouped_brick_fragments.mapM
    (fun kv => (assemble_brick_fragments kv.2).map (fun b => (kv.1, b)))

/-- The halo-box loop of `pad_brick_data_from_volume_source`: for each
axis, a leading slab if the original box starts after the padded box, and
a trailing slab if it stops before it. -/
def haloBoxes (orig_box padded_box : Box) : List Box :=
  (List.finRange 3).flatMap (fun axis =>
    (if orig_box.1 axis ≠ padded_box.1 axis then
        [(padded_box.1, Function.update padded_box.2 axis (orig_box.1 axis))]
      else []) ++
    (if orig_box.2 axis ≠ padded_box.2 axis then
        [(Function.update padded_box.1 axis (orig_box.2 axis), padded_box.2)]
      else []))

/-- `pad_brick_data_from_volume_source(padding_grid, volume_accessor_func,
brick)`: expand the brick's physical box outward to the padding grid,
keeping its data and filling the halo slabs from the accessor.  The entry
assertion requires the logical box to be aligned with the padding grid;
if the physical box is already aligned the brick is returned unchanged. -/
def pad_brick_data_from_volume_source (padding_grid : Grid)
    (volume_accessor_func : Box → Vol) (brick : Brick) : Option Brick :=
  let block_shape := padding_grid.block_shape
  if ∀ i, (brick.logical_box.1 i - padding_grid.offset i).fmod
            (block_shape i) = 0 ∧
          (brick.logical_box.2 i - padding_grid.offset i).fmod
            (block_shape i) = 0 then
    let offset_physical_box := brick.physical_box.sub padding_grid.offset
    if ∀ i, (offset_physical_box.1 i).fmod (block_shape i) = 0 ∧
            (offset_physical_box.2 i).fmod (block_shape i) = 0 then
      some brick
    else
      let offset_padded_box : Box :=
        (fun i => (offset_physical_box.1 i).fdiv (block_shape i) *
            block_shape i,
         fun i => ((offset_physical_box.2 i + block_shape i - 1).fdiv
            (block_shape i)) * block_shape i)
      let padded_box := offset_padded_box.add padding_grid.offset
      if (∀ i, brick.logical_box.1 i ≤ padded_box.1 i) ∧
         (∀ i, padded_box.2 i ≤ brick.logical_box.2 i) then
        let padded_volume_shape : Coord :=
          fun i => padded_box.2 i - padded_box.1 i
        let padded_volume0 := np_zeros padded_volume_shape
        let orig_box := brick.physical_box
        let orig_box_within_padded := orig_box.sub padded_box.1
        let padded_volume :=
          overwrite_subvol padded_volume0 orig_box_within_padded brick.volume
        let halo_boxes := haloBoxes orig_box padded_box
        if halo_boxes ≠ [] then
          let final_volume :=
            halo_boxes.foldl
              (fun vol halo_box =>
                overwrite_subvol vol (halo_box.sub padded_box.1)
                  (volume_accessor_func halo_box))
              padded_volume
          some (Brick.mk brick.logical_box padded_box final_volume)
        else none
      else none
  else none

/-! ### Facts about fragment hulls and the assembly loop -/

/-- A brick sits on grid `g`: its logical box is one of the grid's blocks
(the BrickWall invariant). -/
def brickOnGrid (g : Grid) (b : Brick) : Prop :=
  isGridBlock g b.logical_box

instance (g : Grid) (b : Brick) : Decidable (brickOnGrid g b) := by
  unfold brickOnGrid; infer_instance

theorem foldlMin_le_init (rest : List Brick) (init : Coord) (i : Fin 3) :
    rest.foldl (fun acc f => fun j => min (acc j) (f.physical_box.1 j))
      init i ≤ init i := by
  induction rest generalizing init with
  | nil => exact le_refl _
  | cons a l ih =>
      simp only [List.foldl_cons]
      exact le_trans (ih _) (min_le_left _ _)

theorem foldlMin_le_mem (rest : List Brick) (init : Coord) {f : Brick}
    (hf : f ∈ rest) (i : Fin 3) :
    rest.foldl (fun acc f => fun j => min (acc j) (f.physical_box.1 j))
      init i ≤ f.physical_box.1 i := by
  induction rest generalizing init with
  | nil => cases hf
  | cons a l ih =>
      simp only [List.foldl_cons]
      rcases List.mem_cons.mp hf with rfl | hf'
      · exact le_trans (foldlMin_le_init l _ i) (min_le_right _ _)
      · exact ih _ hf'

theorem foldlMax_init_le (rest : List Brick) (init : Coord) (i : Fin 3) :
    init i ≤ rest.foldl
      (fun acc f => fun j => max (acc j) (f.physical_box.2 j)) init i := by
  induction rest generalizing init with
  | nil => exact le_refl _
  | cons a l ih =>
      simp only [List.foldl_cons]
      exact le_trans (le_max_left _ _) (ih _)

theorem foldlMax_mem_le (rest : List Brick) (init : Coord) {f : Brick}
    (hf : f ∈ rest) (i : Fin 3) :
    f.physical_box.2 i ≤ rest.foldl
      (fun acc f => fun j => max (acc j) (f.physical_box.2 j)) init i := by
  induction rest generalizing init with
  | nil => cases hf
  | cons a l ih =>
      simp only [List.foldl_cons]
      rcases List.mem_cons.mp hf with rfl | hf'
      · exact le_trans (le_max_right _ _) (foldlMax_init_le l _ i)
      · exact ih _ hf'

theorem hullStart_le {f0 : Brick} {rest : List Brick} {f : Brick}
    (hf : f ∈ f0 :: rest) (i : Fin 3) :
    hullStart f0 rest i ≤ f.physical_box.1 i := by
  unfold hullStart
  rcases List.mem_cons.mp hf with rfl | hf'
  · exact foldlMin_le_init rest _ i
  · exact foldlMin_le_mem rest _ hf' i

theorem le_hullStop {f0 : Brick} {rest : List Brick} {f : Brick}
    (hf : f ∈ f0 :: rest) (i : Fin 3) :
    f.physical_box.2 i ≤ hullStop f0 rest i := by
  unfold hullStop
  rcases List.mem_cons.mp hf with rfl | hf'
  · exact foldlMax_init_le rest _ i
  · exact foldlMax_mem_le rest _ hf' i

theorem assembleFoldVol_cons (final_start : Coord) (a : Brick)
    (l : List Brick) (v0 : Vol) :
    assembleFoldVol final_start (a :: l) v0 =
      assembleFoldVol final_start l
        (overwrite_subvol v0 (a.physical_box.sub final_start) a.volume) := rfl

theorem assembleFoldVol_shape (final_start : Coord) (fragments : List Brick)
    (v0 : Vol) : (assembleFoldVol final_start fragments v0).shape = v0.shape := by
  induction fragments generalizing v0 with
  | nil => rfl
  | cons a l ih =>
      rw [assembleFoldVol_cons, ih]
      rfl

theorem inBox_sub_iff {p : Coord} {b : Box} {start : Coord} :
    inBox (fun i => p i - start i) (b.sub start) ↔ inBox p b := by
  unfold inBox Box.sub
  constructor <;> intro h i <;> have := h i <;> dsimp only at * <;> omega

theorem assembleFoldVol_data_of_not_covered {fragments : List Brick}
    {final_start : Coord} {v0 : Vol} {p : Coord}
    (h : ∀ f ∈ fragments, ¬ coveredBy f p) :
    (assembleFoldVol final_start fragments v0).data (fun i => p i - final_start i) =
      v0.data (fun i => p i - final_start i) := by
  induction fragments generalizing v0 with
  | nil => rfl
  | cons a l ih =>
      rw [assembleFoldVol_cons,
        ih (fun f hf => h f (List.mem_cons_of_mem a hf))]
      unfold overwrite_subvol
      dsimp only
      rw [if_neg]
      intro hc
      exact h a (List.mem_cons_self a l) (inBox_sub_iff.mp hc)

theorem assembleFoldVol_data_of_covered {fragments : List Brick}
    {final_start : Coord} {v0 : Vol} {p : Coord} {f : Brick}
    (hdisj : fragments.Pairwise
      (fun f1 f2 => ∀ q, ¬(coveredBy f1 q ∧ coveredBy f2 q)))
    (hf : f ∈ fragments) (hp : coveredBy f p) :
    (assembleFoldVol final_start fragments v0).data
        (fun i => p i - final_start i) = brickValueAt f p := by
  induction fragments generalizing v0 with
  | nil => cases hf
  | cons a l ih =>
      rw [assembleFoldVol_cons]
      rcases List.mem_cons.mp hf with rfl | hf'
      · have hrest : ∀ g ∈ l, ¬ coveredBy g p := by
          intro g hg hc
          exact (List.pairwise_cons.mp hdisj).1 g hg p ⟨hp, hc⟩
        rw [assembleFoldVol_data_of_not_covered hrest]
        unfold overwrite_subvol
        dsimp only
        rw [if_pos (inBox_sub_iff.mpr hp)]
        unfold brickValueAt
        congr 1
        funext i
        dsimp only [Box.sub]
        ring
      · exact ih (List.pairwise_cons.mp hdisj).2 hf'

theorem assemble_some_iff {fragments : List Brick} {b : Brick} :
    assemble_brick_fragments fragments = some b ↔
    ∃ f0 rest, fragments = f0 :: rest ∧
      (∀ f ∈ f0 :: rest, f.logical_box = f0.logical_box) ∧
      (∀ i, f0.logical_box.1 i ≤ hullStart f0 rest i) ∧
      (∀ i, hullStop f0 rest i ≤ f0.logical_box.2 i) ∧
      b = Brick.mk f0.logical_box (hullStart f0 rest, hullStop f0 rest)
            (assembleFoldVol (hullStart f0 rest) (f0 :: rest)
              (np_zeros (fun i => hullStop f0 rest i - hullStart f0 rest i))) := by
  cases fragments with
  | nil => simp [assemble_brick_fragments]
  | cons f0 rest =>
      simp only [assemble_brick_fragments]
      split_ifs with h1 h2
      · constructor
        · intro h
          exact ⟨f0, rest, rfl, h1, fun i => (h2.1 i), fun i => (h2.2 i),
            (Option.some_inj.mp h).symm⟩
        · rintro ⟨f0', rest', heq, _, _, _, rfl⟩
          injection heq with hh tt
          subst hh
          subst tt
          rfl
      · constructor
        · intro h
          cases h
        · rintro ⟨f0', rest', heq, _, hfit1, hfit2, _⟩
          injection heq with hh tt
          subst hh
          subst tt
          exact absurd ⟨hfit1, hfit2⟩ h2
      · constructor
        · intro h
          cases h
        · rintro ⟨f0', rest', heq, hlog', _, _, _⟩
          injection heq with hh tt
          subst hh
          subst tt
          exact absurd hlog' h1

theorem foldl_overwrite_shape (boxes : List Box) (f : Box → Vol)
    (start : Coord) (v : Vol) :
    (boxes.foldl
      (fun vol hb => overwrite_subvol vol (hb.sub start) (f hb)) v).shape =
      v.shape := by
  induction boxes generalizing v with
  | nil => rfl
  | cons a l ih =>
      simp only [List.foldl_cons]
      rw [ih]
      rfl

/-! ### C5, C9, C6: brick integrity, assembly zero-fill, pad idempotence -/

/-- C5: Brick integrity invariant — every brick produced by generation
from a volume source, by `split_brick`, by `assemble_brick_fragments`, or
by `pad_brick_data_from_volume_source` satisfies
`physical_box[0] >= logical_box[0]`, `physical_box[1] <= logical_box[1]`
componentwise, and `volume.shape == physical_box[1] - physical_box[0]`
(generation assumes the accessor honours the requested box shape, and
padding assumes the input brick itself satisfied its constructor's
assertions). -/
theorem brick_integrity_invariant :
    (∀ (bb : Box) (g : Grid) (acc : Box → Vol),
      (∀ box i, (acc box).shape i = box.2 i - box.1 i) →
      ∀ b ∈ generate_bricks_from_volume_source bb g acc, b.wf) ∧
    (∀ (g : Grid) (b : Brick) (kf : Box × Brick),
      kf ∈ split_brick g b → kf.2.wf) ∧
    (∀ (fragments : List Brick) (b : Brick),
      assemble_brick_fragments fragments = some b → b.wf) ∧
    (∀ (g : Grid) (acc : Box → Vol) (b b' : Brick), b.wf →
      pad_brick_data_from_volume_source g acc b = some b' → b'.wf) := by
  refine ⟨?_, ?_, ?_, ?_⟩
  · intro bb g acc hacc b hb
    unfold generate_bricks_from_volume_source at hb
    rw [List.mem_map] at hb
    obtain ⟨L, _, rfl⟩ := hb
    refine ⟨fun i => ?_, fun i => ?_, fun i => hacc _ i⟩
    · exact le_max_left _ _
    · exact min_le_left _ _
  · intro g b kf hkf
    unfold split_brick at hkf
    rw [List.mem_map] at hkf
    obtain ⟨L, _, rfl⟩ := hkf
    refine ⟨fun i => le_max_left _ _, fun i => min_le_left _ _, fun i => ?_⟩
    dsimp only [extract_subvol, Box.sub, box_intersection]
    ring
  · intro fragments b h
    rw [assemble_some_iff] at h
    obtain ⟨f0, rest, rfl, hlog, hfit1, hfit2, rfl⟩ := h
    refine ⟨fun i => hfit1 i, fun i => hfit2 i, fun i => ?_⟩
    show (assembleFoldVol _ _ _).shape i = _
    rw [assembleFoldVol_shape]
    rfl
  · intro g acc b b' hwf h
    simp only [pad_brick_data_from_volume_source] at h
    split_ifs at h with h1 h2 h3 h4
    · obtain rfl := Option.some_inj.mp h
      exact hwf
    · obtain rfl := Option.some_inj.mp h
      refine ⟨fun i => h3.1 i, fun i => h3.2 i, fun i => ?_⟩
      dsimp only
      rw [foldl_overwrite_shape]
      rfl

def accSample : Box → Vol := fun box => np_zeros (fun i => box.2 i - box.1 i)

def volSample : Vol := np_zeros (fun _ => 2)

def brickSample : Brick :=
  ⟨((fun _ => 0), (fun _ => 2)), ((fun _ => 0), (fun _ => 2)), volSample⟩

def gridSample0 : Grid := ⟨fun _ => 2, fun _ => 0⟩

def assembledSample : Brick :=
  ⟨brickSample.logical_box,
   (hullStart brickSample [], hullStop brickSample []),
   assembleFoldVol (hullStart brickSample []) [brickSample]
     (np_zeros (fun i => hullStop brickSample [] i - hullStart brickSample [] i))⟩

theorem brick_integrity_invariant_witness :
    (∀ b ∈ generate_bricks_from_volume_source bbSample gridSample accSample,
      b.wf) ∧
    (∀ kf ∈ split_brick gridSample brickSample, kf.2.wf) ∧
    assembledSample.wf ∧ brickSample.wf :=
  ⟨brick_integrity_invariant.1 bbSample gridSample accSample (fun _ _ => rfl),
   fun kf hkf => brick_integrity_invariant.2.1 gridSample brickSample kf hkf,
   brick_integrity_invariant.2.2.1 [brickSample] assembledSample rfl,
   brick_integrity_invariant.2.2.2 gridSample0 accSample brickSample
     brickSample (by decide) rfl⟩

/-- C9: Assembly zero-fills gaps — when `assemble_brick_fragments` returns
a brick from fragments with pairwise disjoint physical boxes (the list is
necessarily non-empty with identical logical boxes, or the call would have
raised), the result equals the corresponding fragment's value at every
coordinate some fragment covers, and is `0` at every coordinate of its
physical box covered by no fragment. -/
theorem assemble_brick_fragments_zero_fills
    (fragments : List Brick) (b : Brick)
    (hdisj : fragments.Pairwise
      (fun f1 f2 => ∀ q, ¬(coveredBy f1 q ∧ coveredBy f2 q)))
    (h : assemble_brick_fragments fragments = some b) :
    (∀ p f, f ∈ fragments → coveredBy f p →
      brickValueAt b p = brickValueAt f p) ∧
    (∀ p, coveredBy b p → (∀ f ∈ fragments, ¬ coveredBy f p) →
      brickValueAt b p = 0) := by
  rw [assemble_some_iff] at h
  obtain ⟨f0, rest, rfl, hlog, hfit1, hfit2, rfl⟩ := h
  constructor
  · intro p f hf hp
    show (assembleFoldVol _ _ _).data _ = _
    exact assembleFoldVol_data_of_covered hdisj hf hp
  · intro p _ hnone
    show (assembleFoldVol _ _ _).data _ = _
    rw [assembleFoldVol_data_of_not_covered hnone]
    rfl

theorem assemble_brick_fragments_zero_fills_witness :
    (∀ p f, f ∈ [brickSample] → coveredBy f p →
      brickValueAt assembledSample p = brickValueAt f p) ∧
    (∀ p, coveredBy assembledSample p →
      (∀ f ∈ [brickSample], ¬ coveredBy f p) →
      brickValueAt assembledSample p = 0) :=
  assemble_brick_fragments_zero_fills [brickSample] assembledSample
    (by simp) rfl

/-- C6: Padding idempotence — `pad(pad(B, G_pad), G_pad) == pad(B, G_pad)`
for a padding grid with positive block shape, and when the brick's
physical box is already aligned to the padding grid (and its logical box
is aligned, as the code asserts), the very input brick is returned
unchanged. -/
theorem pad_brick_idempotent (padding_grid : Grid) (acc : Box → Vol)
    (brick : Brick) (hs : ∀ i, 0 < padding_grid.block_shape i) :
    ((pad_brick_data_from_volume_source padding_grid acc brick).bind
        (pad_brick_data_from_volume_source padding_grid acc) =
      pad_brick_data_from_volume_source padding_grid acc brick) ∧
    ((∀ i, (brick.logical_box.1 i - padding_grid.offset i).fmod
            (padding_grid.block_shape i) = 0 ∧
          (brick.logical_box.2 i - padding_grid.offset i).fmod
            (padding_grid.block_shape i) = 0) →
     (∀ i, ((brick.physical_box.sub padding_grid.offset).1 i).fmod
            (padding_grid.block_shape i) = 0 ∧
          ((brick.physical_box.sub padding_grid.offset).2 i).fmod
            (padding_grid.block_shape i) = 0) →
     pad_brick_data_from_volume_source padding_grid acc brick = some brick) := by
  have fastpath : ∀ b : Brick,
      (∀ i, (b.logical_box.1 i - padding_grid.offset i).fmod
          (padding_grid.block_shape i) = 0 ∧
        (b.logical_box.2 i - padding_grid.offset i).fmod
          (padding_grid.block_shape i) = 0) →
      (∀ i, ((b.physical_box.sub padding_grid.offset).1 i).fmod
          (padding_grid.block_shape i) = 0 ∧
        ((b.physical_box.sub padding_grid.offset).2 i).fmod
          (padding_grid.block_shape i) = 0) →
      pad_brick_data_from_volume_source padding_grid acc b = some b := by
    intro b hlog hphys
    simp only [pad_brick_data_from_volume_source]
    rw [if_pos hlog, if_pos hphys]
  refine ⟨?_, fastpath brick⟩
  cases hopt : pad_brick_data_from_volume_source padding_grid acc brick with
  | none => rfl
  | some b' =>
      show pad_brick_data_from_volume_source padding_grid acc b' = some b'
      simp only [pad_brick_data_from_volume_source] at hopt
      split_ifs at hopt with h1 h2 h3 h4
      · obtain rfl := Option.some_inj.mp hopt
        exact fastpath _ h1 h2
      · obtain rfl := Option.some_inj.mp hopt
        apply fastpath
        · exact h1
        · intro i
          constructor
          · show ((((brick.physical_box.sub padding_grid.offset).1 i).fdiv
                (padding_grid.block_shape i) * padding_grid.block_shape i +
                padding_grid.offset i) - padding_grid.offset i).fmod
                (padding_grid.block_shape i) = 0
            rw [show ∀ a b : ℤ, a + b - b = a from fun a b => by ring,
              Int.fmod_eq_emod _ (le_of_lt (hs i))]
            exact Int.mul_emod_left _ _
          · show ((((brick.physical_box.sub padding_grid.offset).2 i +
                padding_grid.block_shape i - 1).fdiv
                (padding_grid.block_shape i) * padding_grid.block_shape i +
                padding_grid.offset i) - padding_grid.offset i).fmod
                (padding_grid.block_shape i) = 0
            rw [show ∀ a b : ℤ, a + b - b = a from fun a b => by ring,
              Int.fmod_eq_emod _ (le_of_lt (hs i))]
            exact Int.mul_emod_left _ _

/-! ### C1: the re-grid round trip -/

theorem le_foldlMin (rest : List Brick) (init : Coord) (c : Coord)
    (i : Fin 3) (h0 : c i ≤ init i)
    (h : ∀ f ∈ rest, c i ≤ f.physical_box.1 i) :
    c i ≤ rest.foldl
      (fun acc f => fun j => min (acc j) (f.physical_box.1 j)) init i := by
  induction rest generalizing init with
  | nil => exact h0
  | cons a l ih =>
      simp only [List.foldl_cons]
      refine ih _ ?_ (fun f hf => h f (List.mem_cons_of_mem a hf))
      exact le_min h0 (h a (List.mem_cons_self a l))

theorem foldlMax_le (rest : List Brick) (init : Coord) (c : Coord)
    (i : Fin 3) (h0 : init i ≤ c i)
    (h : ∀ f ∈ rest, f.physical_box.2 i ≤ c i) :
    rest.foldl
      (fun acc f => fun j => max (acc j) (f.physical_box.2 j)) init i ≤ c i := by
  induction rest generalizing init with
  | nil => exact h0
  | cons a l ih =>
      simp only [List.foldl_cons]
      refine ih _ ?_ (fun f hf => h f (List.mem_cons_of_mem a hf))
      exact max_le h0 (h a (List.mem_cons_self a l))

theorem le_hullStart {f0 : Brick} {rest : List Brick} {c : Coord}
    (h : ∀ f ∈ f0 :: rest, ∀ i, c i ≤ f.physical_box.1 i) (i : Fin 3) :
    c i ≤ hullStart f0 rest i := by
  unfold hullStart
  exact le_foldlMin rest _ c i (h f0 (List.mem_cons_self f0 rest) i)
    (fun f hf => h f (List.mem_cons_of_mem f0 hf) i)

theorem hullStop_le {f0 : Brick} {rest : List Brick} {c : Coord}
    (h : ∀ f ∈ f0 :: rest, ∀ i, f.physical_box.2 i ≤ c i) (i : Fin 3) :
    hullStop f0 rest i ≤ c i := by
  unfold hullStop
  exact foldlMax_le rest _ c i (h f0 (List.mem_cons_self f0 rest) i)
    (fun f hf => h f (List.mem_cons_of_mem f0 hf) i)

/-- Everything true of a fragment emitted by `split_brick`: it is keyed by
its own (new) logical box, its physical box is the intersection of that box
with the source's physical box, the key is one of the enumerated new-grid
blocks, and wherever the fragment holds data it holds the source brick's
data. -/
theorem split_brick_mem_spec {g : Grid} {b : Brick} {kf : Box × Brick}
    (hkf : kf ∈ split_brick g b) :
    kf.2.logical_box = kf.1 ∧
    kf.2.physical_box = box_intersection kf.1 b.physical_box ∧
    kf.1 ∈ boxes_from_grid b.physical_box g ∧
    (∀ p, coveredBy kf.2 p → brickValueAt kf.2 p = brickValueAt b p) := by
  unfold split_brick at hkf
  rw [List.mem_map] at hkf
  obtain ⟨L, hL, rfl⟩ := hkf
  refine ⟨rfl, rfl, hL, ?_⟩
  intro p _
  unfold brickValueAt extract_subvol
  dsimp only [Box.sub]
  congr 1
  funext i
  dsimp only [box_intersection]
  ring

theorem split_brick_covers {g : Grid} {b : Brick} {p : Coord}
    (hs : ∀ i, 0 < g.block_shape i) (hp : coveredBy b p) :
    ∃ kf ∈ split_brick g b, kf.1 = blockContaining g p ∧ coveredBy kf.2 p := by
  have hmem : blockContaining g p ∈ boxes_from_grid b.physical_box g := by
    rw [mem_boxes_from_grid hs]
    refine ⟨blockContaining_isGridBlock p, fun i => ?_⟩
    have h1 := (mem_blockContaining hs p) i
    have h2 := hp i
    exact ⟨by omega, by omega⟩
  refine ⟨(blockContaining g p,
      Brick.mk (blockContaining g p)
        (box_intersection (blockContaining g p) b.physical_box)
        (extract_subvol b.volume
          ((box_intersection (blockContaining g p) b.physical_box).sub
            b.physical_box.1))), ?_, rfl, ?_⟩
  · unfold split_brick
    rw [List.mem_map]
    exact ⟨blockContaining g p, hmem, rfl⟩
  · exact inBox_inter.mpr ⟨mem_blockContaining hs p, hp⟩

/-- A fragment's coverage is inside both its key block and its source's
physical box. -/
theorem split_brick_cov_sub {g : Grid} {b : Brick} {kf : Box × Brick}
    (hkf : kf ∈ split_brick g b) {p : Coord}
    (hp : coveredBy kf.2 p) : inBox p kf.1 ∧ coveredBy b p := by
  obtain ⟨_, hphys, _, _⟩ := split_brick_mem_spec hkf
  unfold coveredBy at hp
  rw [hphys] at hp
  exact inBox_inter.mp hp

theorem group_by_key_mem_spec {pairs : List (Box × Brick)}
    {kg : Box × List Brick} (h : kg ∈ group_by_key pairs) :
    kg.2 = (pairs.filter (fun kv => kv.1 = kg.1)).map Prod.snd ∧
    kg.1 ∈ pairs.map Prod.fst := by
  unfold group_by_key at h
  rw [List.mem_map] at h
  obtain ⟨k, hk, rfl⟩ := h
  exact ⟨rfl, List.mem_dedup.mp hk⟩

theorem group_by_key_keys (pairs : List (Box × Brick)) :
    (group_by_key pairs).map Prod.fst = (pairs.map Prod.fst).dedup := by
  unfold group_by_key
  rw [List.map_map]
  have h : (Prod.fst ∘ fun k : Box =>
      (k, (pairs.filter (fun kv => kv.1 = k)).map Prod.snd)) = id :=
    funext fun k => rfl
  rw [h, List.map_id]

theorem group_by_key_complete {pairs : List (Box × Brick)}
    {kv : Box × Brick} (h : kv ∈ pairs) :
    ∃ kg ∈ group_by_key pairs, kg.1 = kv.1 ∧ kv.2 ∈ kg.2 := by
  refine ⟨(kv.1, (pairs.filter (fun x => x.1 = kv.1)).map Prod.snd),
    ?_, rfl, ?_⟩
  · unfold group_by_key
    rw [List.mem_map]
    exact ⟨kv.1, List.mem_dedup.mpr (List.mem_map_of_mem Prod.fst h), rfl⟩
  · exact List.mem_map_of_mem Prod.snd
      (List.mem_filter.mpr ⟨h, by simp⟩)

theorem mapM_option_eq {α β : Type} (l : List α) (f : α → Option β)
    (g : α → β) (h : ∀ a ∈ l, f a = some (g a)) :
    l.mapM f = some (l.map g) := by
  induction l with
  | nil => rfl
  | cons a l ih =>
      rw [List.mapM_cons, h a (List.mem_cons_self a l),
        ih (fun x hx => h x (List.mem_cons_of_mem a hx))]
      rfl

/-- The behaviour of one `realign_bricks_to_new_grid` pass over a
well-formed wall (bricks sitting on distinct blocks of a source grid, each
physical box inside its logical box): the pass succeeds; every output
brick sits on its own key, a block of the target grid, with its physical
box inside it; keys are pairwise distinct; coverage of every source voxel
is preserved; and every output brick holds the source value at every
coordinate it shares with a source brick. -/
theorem realign_spec (gsrc g : Grid) (bricks : List Brick)
    (hgsrc : ∀ i, 0 < gsrc.block_shape i)
    (hg : ∀ i, 0 < g.block_shape i)
    (hon : ∀ b ∈ bricks, brickOnGrid gsrc b)
    (hphys : ∀ b ∈ bricks, ∀ i,
      b.logical_box.1 i ≤ b.physical_box.1 i ∧
      b.physical_box.2 i ≤ b.logical_box.2 i)
    (hdistinct : bricks.Pairwise
      (fun b1 b2 => b1.logical_box ≠ b2.logical_box)) :
    ∃ wall, realign_bricks_to_new_grid g bricks = some wall ∧
      (∀ kb ∈ wall, kb.2.logical_box = kb.1 ∧ isGridBlock g kb.1 ∧
        (∀ i, kb.1.1 i ≤ kb.2.physical_box.1 i ∧
              kb.2.physical_box.2 i ≤ kb.1.2 i)) ∧
      wall.Pairwise (fun kb1 kb2 => kb1.1 ≠ kb2.1) ∧
      (∀ p b, b ∈ bricks → coveredBy b p → ∃ kb ∈ wall, coveredBy kb.2 p) ∧
      (∀ p b kb, b ∈ bricks → coveredBy b p → kb ∈ wall →
        coveredBy kb.2 p → brickValueAt kb.2 p = brickValueAt b p) := by
  have hcov_logical : ∀ b ∈ bricks, ∀ q, coveredBy b q →
      inBox q b.logical_box := by
    intro b hb q hq i
    have h1 := (hphys b hb) i
    have h2 := hq i
    exact ⟨by omega, by omega⟩
  -- distinct source bricks never share a voxel
  have hdisj : bricks.Pairwise
      (fun b1 b2 => ∀ q, ¬(coveredBy b1 q ∧ coveredBy b2 q)) := by
    refine List.Pairwise.imp_of_mem ?_ hdistinct
    intro b1 b2 h1 h2 hne q hq
    exact hne (gridBlocks_eq_of_shared hgsrc (hon b1 h1) (hon b2 h2)
      (hcov_logical b1 h1 q hq.1) (hcov_logical b2 h2 q hq.2))
  -- all emitted fragments are pairwise disjoint
  have hfragdisj : (bricks.flatMap (split_brick g)).Pairwise
      (fun kv1 kv2 => ∀ q, ¬(coveredBy kv1.2 q ∧ coveredBy kv2.2 q)) := by
    rw [List.pairwise_flatMap]
    constructor
    · intro b _
      unfold split_brick
      rw [List.pairwise_map]
      refine List.Pairwise.imp_of_mem ?_ (nodup_boxes_from_grid hg)
      intro L1 L2 hL1 hL2 hne q hq
      have hb1 : inBox q L1 := (inBox_inter.mp hq.1).1
      have hb2 : inBox q L2 := (inBox_inter.mp hq.2).1
      exact hne (gridBlocks_eq_of_shared hg
        ((mem_boxes_from_grid hg).mp hL1).1
        ((mem_boxes_from_grid hg).mp hL2).1 hb1 hb2)
    · refine List.Pairwise.imp_of_mem ?_ hdisj
      intro b1 b2 _ _ hd kv1 hkv1 kv2 hkv2 q hq
      exact hd q ⟨(split_brick_cov_sub hkv1 hq.1).2,
        (split_brick_cov_sub hkv2 hq.2).2⟩
  -- each fragment of a group came from splitting some source brick
  have hgmem : ∀ kg ∈ group_by_key (bricks.flatMap (split_brick g)),
      ∀ f ∈ kg.2, ∃ bsrc ∈ bricks, (kg.1, f) ∈ split_brick g bsrc := by
    intro kg hkg f hf
    obtain ⟨hsnd, _⟩ := group_by_key_mem_spec hkg
    rw [hsnd, List.mem_map] at hf
    obtain ⟨kv, hkv, rfl⟩ := hf
    rw [List.mem_filter] at hkv
    obtain ⟨hkvp, hkey⟩ := hkv
    have hkey' : kv.1 = kg.1 := of_decide_eq_true hkey
    rw [List.mem_flatMap] at hkvp
    obtain ⟨bsrc, hbsrc, hsplit⟩ := hkvp
    refine ⟨bsrc, hbsrc, ?_⟩
    rw [← hkey']
    exact hsplit
  have hfrag_spec : ∀ kg ∈ group_by_key (bricks.flatMap (split_brick g)),
      ∀ f ∈ kg.2, f.logical_box = kg.1 ∧
        (∀ i, kg.1.1 i ≤ f.physical_box.1 i ∧
              f.physical_box.2 i ≤ kg.1.2 i) ∧
        isGridBlock g kg.1 := by
    intro kg hkg f hf
    obtain ⟨bsrc, _, hsplit⟩ := hgmem kg hkg f hf
    obtain ⟨hlog, hphysf, hkey, _⟩ := split_brick_mem_spec hsplit
    refine ⟨hlog, fun i => ?_, ((mem_boxes_from_grid hg).mp hkey).1⟩
    rw [show f.physical_box = box_intersection kg.1 bsrc.physical_box
      from hphysf]
    dsimp only [box_intersection]
    exact ⟨le_max_left _ _, min_le_left _ _⟩
  have hfrag_disj : ∀ kg ∈ group_by_key (bricks.flatMap (split_brick g)),
      kg.2.Pairwise (fun f1 f2 => ∀ q, ¬(coveredBy f1 q ∧ coveredBy f2 q)) := by
    intro kg hkg
    obtain ⟨hsnd, _⟩ := group_by_key_mem_spec hkg
    rw [hsnd, List.pairwise_map]
    exact List.Pairwise.filter _ hfragdisj
  have hgroup_ne : ∀ kg ∈ group_by_key (bricks.flatMap (split_brick g)),
      kg.2 ≠ [] := by
    intro kg hkg
    obtain ⟨hsnd, hkey⟩ := group_by_key_mem_spec hkg
    rw [List.mem_map] at hkey
    obtain ⟨kv, hkv, hfst⟩ := hkey
    intro hnil
    have hm : kv.2 ∈ ((bricks.flatMap (split_brick g)).filter
        (fun x => x.1 = kg.1)).map Prod.snd :=
      List.mem_map_of_mem _ (List.mem_filter.mpr ⟨hkv, by simp [hfst]⟩)
    rw [← hsnd, hnil] at hm
    cases hm
  -- assembling each group succeeds
  have hassemble : ∀ kg ∈ group_by_key (bricks.flatMap (split_brick g)),
      ∃ bout, assemble_brick_fragments kg.2 = some bout := by
    intro kg hkg
    obtain ⟨f0, rest, heq⟩ := List.exists_cons_of_ne_nil (hgroup_ne kg hkg)
    have hmemf : ∀ f ∈ f0 :: rest, f ∈ kg.2 := by
      intro f hf
      rw [heq]
      exact hf
    have hf0log : f0.logical_box = kg.1 :=
      (hfrag_spec kg hkg f0 (hmemf f0 (List.mem_cons_self f0 rest))).1
    refine ⟨Brick.mk f0.logical_box (hullStart f0 rest, hullStop f0 rest)
      (assembleFoldVol (hullStart f0 rest) (f0 :: rest)
        (np_zeros (fun i => hullStop f0 rest i - hullStart f0 rest i))), ?_⟩
    rw [heq]
    refine assemble_some_iff.mpr ⟨f0, rest, rfl, ?_, ?_, ?_, rfl⟩
    · intro f hf
      rw [(hfrag_spec kg hkg f (hmemf f hf)).1, hf0log]
    · intro i
      rw [hf0log]
      refine le_hullStart (fun f hf j => ?_) i
      exact ((hfrag_spec kg hkg f (hmemf f hf)).2.1 j).1
    · intro i
      rw [hf0log]
      refine hullStop_le (fun f hf j => ?_) i
      exact ((hfrag_spec kg hkg f (hmemf f hf)).2.1 j).2
  -- the whole pass succeeds
  have hfeq : ∀ kg ∈ group_by_key (bricks.flatMap (split_brick g)),
      (assemble_brick_fragments kg.2).map (fun b => (kg.1, b)) =
        some (kg.1, (assemble_brick_fragments kg.2).getD brickSample) := by
    intro kg hkg
    obtain ⟨bout, hbout⟩ := hassemble kg hkg
    rw [hbout]
    rfl
  have hwall : realign_bricks_to_new_grid g bricks =
      some ((group_by_key (bricks.flatMap (split_brick g))).map
        (fun kg => (kg.1, (assemble_brick_fragments kg.2).getD brickSample))) := by
    unfold realign_bricks_to_new_grid
    exact mapM_option_eq _ _ _ hfeq
  refine ⟨_, hwall, ?_, ?_, ?_, ?_⟩
  · -- member spec
    intro kb hkb
    rw [List.mem_map] at hkb
    obtain ⟨kg, hkg, rfl⟩ := hkb
    obtain ⟨bout, hbout⟩ := hassemble kg hkg
    obtain ⟨f0, rest, heq2, hlog2, hfit1, hfit2, hbform⟩ :=
      assemble_some_iff.mp hbout
    have hf0log : f0.logical_box = kg.1 := by
      refine (hfrag_spec kg hkg f0 ?_).1
      rw [heq2]
      exact List.mem_cons_self f0 rest
    have hgb : ((assemble_brick_fragments kg.2).getD brickSample) = bout := by
      rw [hbout]
      rfl
    dsimp only
    rw [hgb, hbform]
    refine ⟨hf0log, ?_, fun i => ?_⟩
    · refine (hfrag_spec kg hkg f0 ?_).2.2
      rw [heq2]
      exact List.mem_cons_self f0 rest
    · constructor
      · rw [← hf0log]
        exact hfit1 i
      · rw [← hf0log]
        exact hfit2 i
  · -- distinct keys
    rw [List.pairwise_map]
    have hnd : ((group_by_key (bricks.flatMap (split_brick g))).map
        Prod.fst).Nodup := by
      rw [group_by_key_keys]
      exact List.nodup_dedup _
    exact List.pairwise_map.mp hnd
  · -- coverage preservation
    intro p b hb hp
    obtain ⟨kf, hkf, _, hcovf⟩ := split_brick_covers hg hp
    have hkfpairs : kf ∈ bricks.flatMap (split_brick g) :=
      List.mem_flatMap.mpr ⟨b, hb, hkf⟩
    obtain ⟨kg, hkg, hkgeq, hmem2⟩ := group_by_key_complete hkfpairs
    refine ⟨(kg.1, (assemble_brick_fragments kg.2).getD brickSample),
      List.mem_map_of_mem _ hkg, ?_⟩
    obtain ⟨bout, hbout⟩ := hassemble kg hkg
    have hgb : ((assemble_brick_fragments kg.2).getD brickSample) = bout := by
      rw [hbout]
      rfl
    obtain ⟨f0, rest, heq2, _, _, _, hbform⟩ := assemble_some_iff.mp hbout
    show coveredBy ((assemble_brick_fragments kg.2).getD brickSample) p
    rw [hgb, hbform]
    intro i
    have hkf2 : kf.2 ∈ f0 :: rest := by
      rw [← heq2]
      exact hmem2
    constructor
    · exact le_trans (hullStart_le hkf2 i) (hcovf i).1
    · exact lt_of_lt_of_le (hcovf i).2 (le_hullStop hkf2 i)
  · -- value preservation
    intro p b kb hb hp hkb hcovkb
    rw [List.mem_map] at hkb
    obtain ⟨kg, hkg, rfl⟩ := hkb
    obtain ⟨bout, hbout⟩ := hassemble kg hkg
    have hgb : ((assemble_brick_fragments kg.2).getD brickSample) = bout := by
      rw [hbout]
      rfl
    dsimp only at hcovkb ⊢
    rw [hgb] at hcovkb ⊢
    obtain ⟨f0, rest, heq2, hlog2, hfit1, hfit2, hbform⟩ :=
      assemble_some_iff.mp hbout
    have hf0mem : f0 ∈ kg.2 := by
      rw [heq2]
      exact List.mem_cons_self f0 rest
    have hf0log : f0.logical_box = kg.1 := (hfrag_spec kg hkg f0 hf0mem).1
    have hkg_block : isGridBlock g kg.1 := (hfrag_spec kg hkg f0 hf0mem).2.2
    -- the covered coordinate lies in the key block
    have hpk : inBox p kg.1 := by
      intro i
      have hc := hcovkb i
      rw [hbform] at hc
      dsimp only at hc
      constructor
      · calc kg.1.1 i = f0.logical_box.1 i := by rw [hf0log]
          _ ≤ hullStart f0 rest i := hfit1 i
          _ ≤ p i := hc.1
      · calc p i < hullStop f0 rest i := hc.2
          _ ≤ f0.logical_box.2 i := hfit2 i
          _ = kg.1.2 i := by rw [hf0log]
    -- the fragment of the source brick covering p belongs to this group
    obtain ⟨kf, hkf, hkeyeq, hcovf⟩ := split_brick_covers hg hp
    have hkfpairs : kf ∈ bricks.flatMap (split_brick g) :=
      List.mem_flatMap.mpr ⟨b, hb, hkf⟩
    have hkeq : kf.1 = kg.1 := by
      rw [hkeyeq, gridBlock_eq_blockContaining hg hkg_block hpk]
    have hkf2 : kf.2 ∈ kg.2 := by
      obtain ⟨hsnd, _⟩ := group_by_key_mem_spec hkg
      rw [hsnd]
      exact List.mem_map_of_mem _ (List.mem_filter.mpr ⟨hkfpairs, by simp [hkeq]⟩)
    have hdisj2 : (f0 :: rest).Pairwise
        (fun f1 f2 => ∀ q, ¬(coveredBy f1 q ∧ coveredBy f2 q)) := by
      rw [← heq2]
      exact hfrag_disj kg hkg
    have hkf2' : kf.2 ∈ f0 :: rest := by
      rw [← heq2]
      exact hkf2
    rw [hbform]
    exact (assembleFoldVol_data_of_covered hdisj2 hkf2' hcovf).trans
      ((split_brick_mem_spec hkf).2.2.2 p hcovf)

/-- C1: Round-trip re-grid — realigning a BrickWall (bricks on distinct
blocks of grid `G`, each physical box inside its logical box) to a grid
`G'` via `split_brick` / group-by-key / `assemble_brick_fragments`, and
then realigning the result back to `G`, succeeds and yields bricks whose
voxel data equals the original wall's data at every coordinate lying both
in the original wall's coverage and in a resulting brick's coverage. -/
theorem realign_roundtrip (G Gnew : Grid) (bricks : List Brick)
    (hG : ∀ i, 0 < G.block_shape i) (hGnew : ∀ i, 0 < Gnew.block_shape i)
    (hon : ∀ b ∈ bricks, brickOnGrid G b)
    (hphys : ∀ b ∈ bricks, ∀ i,
      b.logical_box.1 i ≤ b.physical_box.1 i ∧
      b.physical_box.2 i ≤ b.logical_box.2 i)
    (hdistinct : bricks.Pairwise
      (fun b1 b2 => b1.logical_box ≠ b2.logical_box)) :
    ∃ wall1 wall2,
      realign_bricks_to_new_grid Gnew bricks = some wall1 ∧
      realign_bricks_to_new_grid G (wall1.map Prod.snd) = some wall2 ∧
      ∀ p b kb, b ∈ bricks → coveredBy b p → kb ∈ wall2 →
        coveredBy kb.2 p → brickValueAt kb.2 p = brickValueAt b p := by
  obtain ⟨wall1, hw1, hspec1, hkeys1, hcov1, hval1⟩ :=
    realign_spec G Gnew bricks hG hGnew hon hphys hdistinct
  have hon1 : ∀ b ∈ wall1.map Prod.snd, brickOnGrid Gnew b := by
    intro b hb
    rw [List.mem_map] at hb
    obtain ⟨kb, hkb, rfl⟩ := hb
    obtain ⟨hlog, hblk, _⟩ := hspec1 kb hkb
    unfold brickOnGrid
    rw [hlog]
    exact hblk
  have hphys1 : ∀ b ∈ wall1.map Prod.snd, ∀ i,
      b.logical_box.1 i ≤ b.physical_box.1 i ∧
      b.physical_box.2 i ≤ b.logical_box.2 i := by
    intro b hb i
    rw [List.mem_map] at hb
    obtain ⟨kb, hkb, rfl⟩ := hb
    obtain ⟨hlog, _, hbounds⟩ := hspec1 kb hkb
    rw [hlog]
    exact hbounds i
  have hdistinct1 : (wall1.map Prod.snd).Pairwise
      (fun b1 b2 => b1.logical_box ≠ b2.logical_box) := by
    rw [List.pairwise_map]
    refine List.Pairwise.imp_of_mem ?_ hkeys1
    intro kb1 kb2 h1 h2 hne
    rw [(hspec1 kb1 h1).1, (hspec1 kb2 h2).1]
    exact hne
  obtain ⟨wall2, hw2, _, _, _, hval2⟩ :=
    realign_spec Gnew G (wall1.map Prod.snd) hGnew hG hon1 hphys1 hdistinct1
  refine ⟨wall1, wall2, hw1, hw2, ?_⟩
  intro p b kb hb hp hkb hcovkb
  obtain ⟨kb1, hkb1, hcovkb1⟩ := hcov1 p b hb hp
  have hb1 : kb1.2 ∈ wall1.map Prod.snd := List.mem_map_of_mem Prod.snd hkb1
  calc brickValueAt kb.2 p
      = brickValueAt kb1.2 p := hval2 p kb1.2 kb hb1 hcovkb1 hkb hcovkb
    _ = brickValueAt b p := hval1 p b kb1 hb hp hkb1 hcovkb1

theorem realign_roundtrip_witness :
    ((∀ b ∈ [brickSample], brickOnGrid gridSample0 b) ∧
      List.Pairwise (fun b1 b2 : Brick => b1.logical_box ≠ b2.logical_box)
        [brickSample]) ∧
    (∃ wall1 wall2,
      realign_bricks_to_new_grid gridSample [brickSample] = some wall1 ∧
      realign_bricks_to_new_grid gridSample0 (wall1.map Prod.snd) =
        some wall2 ∧
      ∀ p b kb, b ∈ [brickSample] → coveredBy b p → kb ∈ wall2 →
        coveredBy kb.2 p → brickValueAt kb.2 p = brickValueAt b p) :=
  ⟨⟨by decide, by decide⟩,
   realign_roundtrip gridSample0 gridSample [brickSample] (by decide)
     (by decide) (by decide) (by decide) (by decide)⟩

theorem pad_brick_idempotent_witness :
    (∀ i, 0 < gridSample0.block_shape i) ∧
    (((pad_brick_data_from_volume_source gridSample0 accSample
          brickSample).bind
        (pad_brick_data_from_volume_source gridSample0 accSample) =
      pad_brick_data_from_volume_source gridSample0 accSample brickSample)) :=
  ⟨by decide,
   (pad_brick_idempotent gridSample0 accSample brickSample (by decide)).1⟩

/-! ### C7: `downsample` from `flyemflows/util/util.py` -/

/-- `DOWNSAMPLE_METHODS` from `flyemflows/util/util.py`. -/
def DOWNSAMPLE_METHODS : List String :=
  ["subsample", "zoom", "grayscale", "mode", "labels", "label"]

/-- The ways `downsample` can raise: the method assertion, the
shape-alignment assertion ("Volume dimensions must be a multiple of the
downsample factor."), and the unreachable trailing
`AssertionError("Shouldn't get here.")`. -/
inductive DownsampleError where
  | badMethod : DownsampleError
  | unalignedDownsample : DownsampleError
  | shouldNotGetHere : DownsampleError
deriving DecidableEq

/-- numpy strided pick `volume[::f, ::f, ::f].copy('C')`: entry `q` picks
`volume[q*f]`; each axis length becomes `ceil(shape/f)`. -/
def subsampleVol (volume : Vol) (factor : ℤ) : Vol :=
  ⟨fun i => (volume.shape i + factor - 1).fdiv factor,
   fun q => volume.data (fun i => q i * factor)⟩

/-- `downsample(volume, factor, method)` from `flyemflows/util/util.py`.
The two resampling kernels that live in external libraries —
`scipy.ndimage.zoom` and `dvidutils.downsample_labels` — are taken as
parameters (`zoomImpl`, `downsample_labels`); this claim is about the
assertion behaviour, which is independent of them. -/
def downsample (zoomImpl : Vol → ℤ → Vol)
    (downsample_labels : Vol → ℤ → Bool → Vol)
    (volume : Vol) (factor : ℤ) (method : String) :
    Except DownsampleError Vol :=
  if method ∈ DOWNSAMPLE_METHODS then
    if ∀ i, (volume.shape i).fmod factor = 0 then
      if method = "subsample" then
        Except.ok (subsampleVol volume factor)
      else if method = "zoom" ∨ method = "grayscale" then
        Except.ok (zoomImpl volume factor)
      else if method = "mode" then
        Except.ok (downsample_labels volume factor false)
      else if method = "labels" ∨ method = "label" then
        Except.ok (downsample_labels volume factor true)
      else
        Except.error DownsampleError.shouldNotGetHere
    else
      Except.error DownsampleError.unalignedDownsample
  else
    Except.error DownsampleError.badMethod

/-- C7: Downsample precondition — for every volume and factor, and every
method in the enumerated set, `downsample` fails with the
unaligned-downsample error when some component of the shape is not a
multiple of the factor, and returns a downsampled volume otherwise. -/
theorem downsample_precondition (zoomImpl : Vol → ℤ → Vol)
    (downsample_labels : Vol → ℤ → Bool → Vol)
    (volume : Vol) (factor : ℤ) (method : String)
    (hm : method ∈ DOWNSAMPLE_METHODS) :
    ((¬ ∀ i, (volume.shape i).fmod factor = 0) →
      downsample zoomImpl downsample_labels volume factor method =
        Except.error DownsampleError.unalignedDownsample) ∧
    ((∀ i, (volume.shape i).fmod factor = 0) →
      ∃ result, downsample zoomImpl downsample_labels volume factor method =
        Except.ok result) := by
  constructor
  · intro hun
    unfold downsample
    rw [if_pos hm, if_neg hun]
  · intro hal
    unfold downsample
    rw [if_pos hm, if_pos hal]
    simp only [DOWNSAMPLE_METHODS, List.mem_cons, List.mem_singleton] at hm
    rcases hm with rfl | rfl | rfl | rfl | rfl | rfl | h
    · exact ⟨_, by rw [if_pos rfl]⟩
    · exact ⟨_, by rw [if_neg (by decide), if_pos (Or.inl rfl)]⟩
    · exact ⟨_, by rw [if_neg (by decide), if_pos (Or.inr rfl)]⟩
    · exact ⟨_, by rw [if_neg (by decide), if_neg (by decide), if_pos rfl]⟩
    · exact ⟨_, by rw [if_neg (by decide), if_neg (by decide),
        if_neg (by decide), if_pos (Or.inl rfl)]⟩
    · exact ⟨_, by rw [if_neg (by decide), if_neg (by decide),
        if_neg (by decide), if_pos (Or.inr rfl)]⟩
    · cases h

theorem downsample_precondition_witness :
    ("labels" ∈ DOWNSAMPLE_METHODS) ∧
    (((¬ ∀ i, ((np_zeros (fun _ => 4)).shape i).fmod 2 = 0) →
      downsample (fun v _ => v) (fun v _ _ => v) (np_zeros (fun _ => 4)) 2
        "labels" = Except.error DownsampleError.unalignedDownsample) ∧
    ((∀ i, ((np_zeros (fun _ => 4)).shape i).fmod 2 = 0) →
      ∃ result, downsample (fun v _ => v) (fun v _ _ => v)
        (np_zeros (fun _ => 4)) 2 "labels" = Except.ok result)) :=
  ⟨by decide,
   downsample_precondition (fun v _ => v) (fun v _ _ => v)
     (np_zeros (fun _ => 4)) 2 "labels" (by decide)⟩

/-! ### C8: `apply_labelmap_to_bricks` with an empty label-map -/

/-- A distributed collection: the elements plus an identity distinguishing
the RDD object.  `rt.map` always builds a new RDD (a distinct identity). -/
structure RDD (α : Type) where
  rddId : ℕ
  elems : List α

/-- `rt.map(f, rdd)`: a new collection (fresh identity) holding the mapped
elements. -/
def rtMap {α β : Type} (f : α → β) (r : RDD α) : RDD β :=
  ⟨r.rddId + 1, r.elems.map f⟩

/-- `apply_labelmap_to_bricks(bricks, labelmap_config, working_dir,
unpersist_original)` from `brick.py`, with the labelmap file path from the
config (`none`/empty string mean "no labelmap") and the whole non-empty
branch (`load_labelmap` + `apply_label_mapping`, which does file I/O and
calls `dvidutils.LabelMapper`) taken as a parameter `applyMapping`. -/
def apply_labelmap_to_bricks (applyMapping : RDD Brick → RDD Brick)
    (labelmap_file : Option String) (unpersist_original : Bool)
    (bricks : RDD Brick) : RDD Brick :=
  if labelmap_file = none ∨ labelmap_file = some "" then
    if unpersist_original = false then
      rtMap (fun brick => brick) bricks
    else
      bricks
  else
    applyMapping bricks

/-- C8: Empty label-map is a non-aliasing no-op — with no labelmap file
and `unpersist_original = false`, the result is a collection distinct from
the input collection (so unpersisting it cannot release the input) whose
elements are exactly the same bricks, voxel data untouched. -/
theorem apply_labelmap_empty_noop (applyMapping : RDD Brick → RDD Brick)
    (labelmap_file : Option String) (bricks : RDD Brick)
    (hfile : labelmap_file = none ∨ labelmap_file = some "") :
    apply_labelmap_to_bricks applyMapping labelmap_file false bricks ≠
      bricks ∧
    (apply_labelmap_to_bricks applyMapping labelmap_file false bricks).elems =
      bricks.elems := by
  unfold apply_labelmap_to_bricks
  rw [if_pos hfile, if_pos rfl]
  constructor
  · intro h
    have hid := congrArg RDD.rddId h
    simp only [rtMap] at hid
    omega
  · simp [rtMap]

theorem apply_labelmap_empty_noop_witness :
    ((none : Option String) = none ∨ (none : Option String) = some "") ∧
    (apply_labelmap_to_bricks id none false (RDD.mk 0 [brickSample]) ≠
      RDD.mk 0 [brickSample] ∧
    (apply_labelmap_to_bricks id none false
        (RDD.mk 0 [brickSample])).elems = [brickSample]) :=
  ⟨Or.inl rfl, apply_labelmap_empty_noop id none (RDD.mk 0 [brickSample])
    (Or.inl rfl)⟩

/-! ### The stitching engine of `Segmentor.py`

Python dicts keyed by labels are modelled as association lists with
Python-dict update semantics (`insertA` replaces the value of an existing
key in place, or appends a fresh key); Python sets of labels are modelled
as duplicate-free lists (`addS`). -/

/-- A Python-dict lookup in an association list. -/
def lookupA {β : Type} : List (ℤ × β) → ℤ → Option β
  | [], _ => none
  | kv :: rest, x => if x = kv.1 then some kv.2 else lookupA rest x

/-- A Python-dict assignment `d[k] = v`. -/
def insertA {β : Type} (l : List (ℤ × β)) (k : ℤ) (v : β) : List (ℤ × β) :=
  if l.any (fun kv => kv.1 = k) then
    l.map (fun kv => if kv.1 = k then (k, v) else kv)
  else l ++ [(k, v)]

/-- A Python-set `s.add(x)`. -/
def addS (s : List ℤ) (x : ℤ) : List ℤ :=
  if x ∈ s then s else s ++ [x]

theorem lookupA_map_update_self {β : Type} (l : List (ℤ × β)) (k : ℤ)
    (v : β) (hany : ∃ kv ∈ l, kv.1 = k) :
    lookupA (l.map (fun kv => if kv.1 = k then (k, v) else kv)) k =
      some v := by
  induction l with
  | nil => simp at hany
  | cons kv rest ih =>
      simp only [List.map_cons]
      by_cases hkv : kv.1 = k
      · rw [if_pos hkv]
        unfold lookupA
        rw [if_pos rfl]
      · rw [if_neg hkv]
        unfold lookupA
        rw [if_neg (fun h : k = kv.1 => hkv h.symm)]
        refine ih ?_
        rcases hany with ⟨kv2, h2, h3⟩
        rcases List.mem_cons.mp h2 with rfl | h2
        · exact absurd h3 hkv
        · exact ⟨kv2, h2, h3⟩

theorem lookupA_map_update_ne {β : Type} (l : List (ℤ × β)) (k : ℤ)
    (v : β) (x : ℤ) (hx : x ≠ k) :
    lookupA (l.map (fun kv => if kv.1 = k then (k, v) else kv)) x =
      lookupA l x := by
  induction l with
  | nil => rfl
  | cons kv rest ih =>
      simp only [List.map_cons]
      by_cases hkv : kv.1 = k
      · rw [if_pos hkv]
        unfold lookupA
        rw [if_neg hx, if_neg (fun h : x = kv.1 => hx (hkv ▸ h))]
        exact ih
      · rw [if_neg hkv]
        unfold lookupA
        by_cases hx2 : x = kv.1
        · rw [if_pos hx2, if_pos hx2]
        · rw [if_neg hx2, if_neg hx2]
          exact ih

theorem lookupA_append_single {β : Type} (l : List (ℤ × β)) (k : ℤ)
    (v : β) (x : ℤ) (hnone : ∀ kv ∈ l, kv.1 ≠ k) :
    lookupA (l ++ [(k, v)]) x = if x = k then some v else lookupA l x := by
  induction l with
  | nil =>
      unfold lookupA lookupA
      rfl
  | cons kv rest ih =>
      simp only [List.cons_append]
      unfold lookupA
      by_cases hx2 : x = kv.1
      · have hxk : ¬ x = k := by
          intro hxk
          exact hnone kv (List.mem_cons_self kv rest) (by rw [← hxk, hx2])
        rw [if_pos hx2, if_neg hxk, if_pos hx2]
      · rw [if_neg hx2, if_neg hx2]
        exact ih (fun kv2 h2 => hnone kv2 (List.mem_cons_of_mem kv h2))

theorem lookupA_insertA {β : Type} (l : List (ℤ × β)) (k : ℤ) (v : β)
    (x : ℤ) :
    lookupA (insertA l k v) x = if x = k then some v else lookupA l x := by
  unfold insertA
  by_cases hany : l.any (fun kv => kv.1 = k)
  · rw [if_pos hany]
    by_cases hx : x = k
    · subst hx
      rw [if_pos rfl]
      refine lookupA_map_update_self l x v ?_
      rcases List.any_eq_true.mp hany with ⟨kv, h1, h2⟩
      exact ⟨kv, h1, of_decide_eq_true h2⟩
    · rw [if_neg hx]
      exact lookupA_map_update_ne l k v x hx
  · rw [if_neg hany]
    refine lookupA_append_single l k v x ?_
    intro kv hkv hk
    exact hany (List.any_eq_true.mpr ⟨kv, hkv, decide_eq_true hk⟩)

theorem lookupA_foldl_insertA {β : Type} (tb : List ℤ) (m0 : List (ℤ × β))
    (v : β) (x : ℤ) :
    lookupA (tb.foldl (fun m t => insertA m t v) m0) x =
      if x ∈ tb then some v else lookupA m0 x := by
  induction tb generalizing m0 with
  | nil => simp
  | cons t ts ih =>
      simp only [List.foldl_cons]
      rw [ih, lookupA_insertA]
      by_cases hts : x ∈ ts
      · rw [if_pos hts, if_pos (List.mem_cons_of_mem t hts)]
      · rw [if_neg hts]
        by_cases hxt : x = t
        · rw [if_pos hxt, if_pos (by rw [hxt]; exact List.mem_cons_self t ts)]
        · rw [if_neg hxt, if_neg (by
            intro h
            rcases List.mem_cons.mp h with h | h
            · exact hxt h
            · exact hts h)]

theorem mem_addS {s : List ℤ} {x y : ℤ} : x ∈ addS s y ↔ x ∈ s ∨ x = y := by
  unfold addS
  split_ifs with h
  · constructor
    · exact Or.inl
    · rintro (h2 | rfl)
      · exact h2
      · exact h
  · simp

theorem mem_foldl_addS {l : List ℤ} {s0 : List ℤ} {x : ℤ} :
    x ∈ l.foldl addS s0 ↔ x ∈ s0 ∨ x ∈ l := by
  induction l generalizing s0 with
  | nil => simp
  | cons t ts ih =>
      simp only [List.foldl_cons]
      rw [ih, mem_addS]
      constructor
      · rintro ((h | rfl) | h)
        · exact Or.inl h
        · exact Or.inr (List.mem_cons_self _ _)
        · exact Or.inr (List.mem_cons_of_mem t h)
      · rintro (h | h)
        · exact Or.inl (Or.inl h)
        · rcases List.mem_cons.mp h with rfl | h
          · exact Or.inl (Or.inr rfl)
          · exact Or.inr h

/-- The state of the global merge-resolution loop in `Segmentor.stitch`:
the dict `body1body2` (label → current representative) and the dict
`body2body1` (representative → set of absorbed labels). -/
structure MergeGraphState where
  body1body2 : List (ℤ × ℤ)
  body2body1 : List (ℤ × List ℤ)

/-- One iteration of the `for merger in merge_list` loop of
`Segmentor.stitch`.  When `body1 == body2` the Python inner loop iterates
over the very set it adds to, but it only re-adds elements already
present, so the set is never resized during iteration and the snapshot
semantics used here coincides with the Python semantics. -/
def processMerge (st : MergeGraphState) (merger : ℤ × ℤ) : MergeGraphState :=
  let body1 := (lookupA st.body1body2 merger.1).getD merger.1
  let body2 := (lookupA st.body1body2 merger.2).getD merger.2
  let cur := (lookupA st.body2body1 body2).getD []
  let inv1 := insertA st.body2body1 body2 (addS cur body1)
  let m1 := insertA st.body1body2 body1 body2
  match lookupA inv1 body1 with
  | none => ⟨m1, inv1⟩
  | some tbodies =>
      ⟨tbodies.foldl (fun m tbody => insertA m tbody body2) m1,
       insertA inv1 body2
         (tbodies.foldl addS ((lookupA inv1 body2).getD []))⟩

/-- The whole `body1body2` / `body2body1` loop over a collected merge
list. -/
def buildMergeMap (merge_list : List (ℤ × ℤ)) : MergeGraphState :=
  merge_list.foldl processMerge ⟨[], []⟩

/-- The current representative of a label under the loop state: the
dict value when present, the label itself otherwise (exactly how both the
loop and the final `relabel` use `body1body2`). -/
def MergeGraphState.rep (st : MergeGraphState) (x : ℤ) : ℤ :=
  (lookupA st.body1body2 x).getD x

/-- The final label remapping of `Segmentor.stitch` (the broadcast
`body2body = zip(body1body2.keys(), body1body2.values())`, looked up with
identity default as `relabel` does). -/
def repCode (merge_list : List (ℤ × ℤ)) (x : ℤ) : ℤ :=
  (buildMergeMap merge_list).rep x

/-- `x` appears as an endpoint of some edge. -/
def labelIn (E : List (ℤ × ℤ)) (x : ℤ) : Prop :=
  ∃ e ∈ E, e.1 = x ∨ e.2 = x

instance (E : List (ℤ × ℤ)) (x : ℤ) : Decidable (labelIn E x) := by
  unfold labelIn; infer_instance

/-- Two labels joined by an edge of the candidate list (in either
orientation). -/
def edgeRel (E : List (ℤ × ℤ)) (a b : ℤ) : Prop := (a, b) ∈ E ∨ (b, a) ∈ E

/-- Connected in the graph of candidate merge edges. -/
def connectedE (E : List (ℤ × ℤ)) : ℤ → ℤ → Prop :=
  Relation.ReflTransGen (edgeRel E)

theorem connectedE_symm {E : List (ℤ × ℤ)} {x y : ℤ}
    (h : connectedE E x y) : connectedE E y x := by
  induction h with
  | refl => exact .refl
  | tail _ step ih =>
      exact Relation.ReflTransGen.trans
        (Relation.ReflTransGen.single (Or.elim step Or.inr Or.inl)) ih

theorem connectedE_mono {E : List (ℤ × ℤ)} (e : ℤ × ℤ) {x y : ℤ}
    (h : connectedE E x y) : connectedE (E ++ [e]) x y := by
  induction h with
  | refl => exact .refl
  | tail _ step ih =>
      refine Relation.ReflTransGen.tail ih ?_
      rcases step with h2 | h2
      · exact Or.inl (List.mem_append_left _ h2)
      · exact Or.inr (List.mem_append_left _ h2)

theorem connectedE_new_edge (E : List (ℤ × ℤ)) (e : ℤ × ℤ) :
    connectedE (E ++ [e]) e.1 e.2 :=
  Relation.ReflTransGen.single
    (Or.inl (List.mem_append_right _ (List.mem_singleton_self e)))

/-- Adding one edge: connectivity decomposes into the old connectivity
plus paths through the new edge. -/
theorem connectedE_append {E : List (ℤ × ℤ)} {e : ℤ × ℤ} {x y : ℤ} :
    connectedE (E ++ [e]) x y ↔
      connectedE E x y ∨
      (connectedE E x e.1 ∧ connectedE E e.2 y) ∨
      (connectedE E x e.2 ∧ connectedE E e.1 y) := by
  constructor
  · intro h
    induction h with
    | refl => exact Or.inl .refl
    | tail _ step ih =>
        rename_i c y' _
        have hstep : edgeRel E c y' ∨ (c = e.1 ∧ y' = e.2) ∨
            (c = e.2 ∧ y' = e.1) := by
          rcases step with h2 | h2
          · rcases List.mem_append.mp h2 with h3 | h3
            · exact Or.inl (Or.inl h3)
            · rcases List.mem_singleton.mp h3 with h4
              exact Or.inr (Or.inl ⟨congrArg Prod.fst h4,
                congrArg Prod.snd h4⟩)
          · rcases List.mem_append.mp h2 with h3 | h3
            · exact Or.inl (Or.inr h3)
            · rcases List.mem_singleton.mp h3 with h4
              exact Or.inr (Or.inr ⟨congrArg Prod.snd h4,
                congrArg Prod.fst h4⟩)
        rcases hstep with h2 | ⟨rfl, rfl⟩ | ⟨rfl, rfl⟩
        · rcases ih with h3 | ⟨h3, h4⟩ | ⟨h3, h4⟩
          · exact Or.inl (h3.tail h2)
          · exact Or.inr (Or.inl ⟨h3, h4.tail h2⟩)
          · exact Or.inr (Or.inr ⟨h3, h4.tail h2⟩)
        · rcases ih with h3 | ⟨h3, h4⟩ | ⟨h3, h4⟩
          · exact Or.inr (Or.inl ⟨h3, .refl⟩)
          · exact Or.inr (Or.inl ⟨h3, .refl⟩)
          · exact Or.inl h3
        · rcases ih with h3 | ⟨h3, h4⟩ | ⟨h3, h4⟩
          · exact Or.inr (Or.inr ⟨h3, .refl⟩)
          · exact Or.inl h3
          · exact Or.inr (Or.inr ⟨h3, .refl⟩)
  · rintro (h | ⟨h1, h2⟩ | ⟨h1, h2⟩)
    · exact connectedE_mono e h
    · exact ((connectedE_mono e h1).tail
        (Or.inl (List.mem_append_right _ (List.mem_singleton_self e)))).trans
        (connectedE_mono e h2)
    · exact ((connectedE_mono e h1).tail
        (Or.inr (List.mem_append_right _ (List.mem_singleton_self e)))).trans
        (connectedE_mono e h2)

theorem labelIn_append {E : List (ℤ × ℤ)} {e : ℤ × ℤ} {x : ℤ}
    (h : labelIn E x) : labelIn (E ++ [e]) x := by
  obtain ⟨e2, he2, hx⟩ := h
  exact ⟨e2, List.mem_append_left _ he2, hx⟩

theorem labelIn_new1 (E : List (ℤ × ℤ)) (e : ℤ × ℤ) :
    labelIn (E ++ [e]) e.1 :=
  ⟨e, List.mem_append_right _ (List.mem_singleton_self e), Or.inl rfl⟩

theorem labelIn_new2 (E : List (ℤ × ℤ)) (e : ℤ × ℤ) :
    labelIn (E ++ [e]) e.2 :=
  ⟨e, List.mem_append_right _ (List.mem_singleton_self e), Or.inr rfl⟩

/-- The loop invariant of the merge-resolution loop: `body1body2` maps
every key to the fixed representative of its class, representatives
induce exactly the connectivity classes of the processed edges,
`body2body1` lists every absorbed member of a representative's class, and
everything mentioned is a label of some processed edge. -/
structure MergeInv (E : List (ℤ × ℤ)) (st : MergeGraphState) : Prop where
  fix : ∀ x r, lookupA st.body1body2 x = some r → st.rep r = r
  repConn : ∀ x y, st.rep x = st.rep y ↔ connectedE E x y
  cover : ∀ x r, lookupA st.body1body2 x = some r →
    x ∈ (lookupA st.body2body1 r).getD []
  members : ∀ r x, x ∈ (lookupA st.body2body1 r).getD [] → st.rep r = r →
    st.rep x = r
  keysIn : ∀ x r, lookupA st.body1body2 x = some r →
    labelIn E x ∧ labelIn E r

theorem rep_idem {E : List (ℤ × ℤ)} {st : MergeGraphState}
    (inv : MergeInv E st) (x : ℤ) : st.rep (st.rep x) = st.rep x := by
  unfold MergeGraphState.rep
  cases hx : lookupA st.body1body2 x with
  | none => simp [MergeGraphState.rep, hx] at *
  | some r =>
      have := inv.fix x r hx
      simpa [MergeGraphState.rep, hx] using this

/-- How one loop iteration changes the membership of the `body2body1`
sets: the set of the representative of `merger[1]` absorbs the
representative of `merger[0]` and all its recorded members; all other
sets are untouched. -/
theorem processMerge_mem_inv (st : MergeGraphState) (e : ℤ × ℤ) (r x : ℤ) :
    x ∈ (lookupA (processMerge st e).body2body1 r).getD [] ↔
      (r = st.rep e.2 ∧
        (x ∈ (lookupA st.body2body1 (st.rep e.2)).getD [] ∨
         x = st.rep e.1 ∨
         x ∈ (lookupA st.body2body1 (st.rep e.1)).getD [])) ∨
      (r ≠ st.rep e.2 ∧ x ∈ (lookupA st.body2body1 r).getD []) := by
  have ha : (lookupA st.body1body2 e.1).getD e.1 = st.rep e.1 := rfl
  have hb : (lookupA st.body1body2 e.2).getD e.2 = st.rep e.2 := rfl
  simp only [processMerge]
  split
  · rename_i hT
    rw [ha, hb] at hT ⊢
    rw [lookupA_insertA] at hT
    rw [lookupA_insertA]
    by_cases hab : st.rep e.1 = st.rep e.2
    · rw [if_pos hab] at hT
      exact Option.noConfusion hT
    · rw [if_neg hab] at hT
      by_cases hr : r = st.rep e.2
      · rw [if_pos hr, hT]
        simp only [Option.getD_some, Option.getD_none, List.not_mem_nil,
          or_false, mem_addS]
        tauto
      · rw [if_neg hr]
        tauto
  · rename_i tbodies hT
    rw [ha, hb] at hT ⊢
    rw [lookupA_insertA] at hT
    rw [lookupA_insertA]
    by_cases hr : r = st.rep e.2
    · rw [if_pos hr]
      rw [show lookupA (insertA st.body2body1 (st.rep e.2)
          (addS ((lookupA st.body2body1 (st.rep e.2)).getD [])
            (st.rep e.1))) (st.rep e.2) =
          some (addS ((lookupA st.body2body1 (st.rep e.2)).getD [])
            (st.rep e.1)) from by rw [lookupA_insertA, if_pos rfl]]
      simp only [Option.getD_some, mem_foldl_addS, mem_addS]
      by_cases hab : st.rep e.1 = st.rep e.2
      · rw [if_pos hab] at hT
        have htb : tbodies = addS
            ((lookupA st.body2body1 (st.rep e.2)).getD [])
            (st.rep e.1) := (Option.some_inj.mp hT).symm
        rw [htb]
        simp only [mem_addS]
        rw [hab]
        tauto
      · rw [if_neg hab] at hT
        have htb : (lookupA st.body2body1 (st.rep e.1)).getD [] =
            tbodies := by rw [hT]; rfl
        rw [← htb]
        tauto
    · rw [if_neg hr, lookupA_insertA, if_neg hr]
      tauto

/-- How one loop iteration changes `body1body2`: every label of the class
of `merger[0]`'s representative is remapped to `merger[1]`'s
representative; everything else is untouched. -/
theorem processMerge_lookup_m {E : List (ℤ × ℤ)} {st : MergeGraphState}
    (inv : MergeInv E st) (e : ℤ × ℤ) (z : ℤ) :
    lookupA (processMerge st e).body1body2 z =
      if st.rep z = st.rep e.1 then some (st.rep e.2)
      else lookupA st.body1body2 z := by
  have ha : (lookupA st.body1body2 e.1).getD e.1 = st.rep e.1 := rfl
  have hb : (lookupA st.body1body2 e.2).getD e.2 = st.rep e.2 := rfl
  have hra : st.rep (st.rep e.1) = st.rep e.1 := rep_idem inv e.1
  have hrb : st.rep (st.rep e.2) = st.rep e.2 := rep_idem inv e.2
  -- a non-key label is its own representative
  have hrep_of_ne : ∀ w, w ≠ st.rep e.1 → st.rep w = st.rep e.1 →
      lookupA st.body1body2 w = some (st.rep e.1) := by
    intro w hw hrw
    cases hw2 : lookupA st.body1body2 w with
    | none =>
        exact absurd (by simpa [MergeGraphState.rep, hw2] using hrw) hw
    | some u =>
        rw [show u = st.rep e.1 from by
          simpa [MergeGraphState.rep, hw2] using hrw]
  simp only [processMerge]
  split
  · rename_i hT
    rw [ha, hb] at hT ⊢
    rw [lookupA_insertA] at hT ⊢
    by_cases hab : st.rep e.1 = st.rep e.2
    · rw [if_pos hab] at hT
      exact Option.noConfusion hT
    · rw [if_neg hab] at hT
      by_cases hz : z = st.rep e.1
      · rw [if_pos hz, if_pos (by rw [hz]; exact hra)]
      · rw [if_neg hz]
        by_cases hrz : st.rep z = st.rep e.1
        · exfalso
          have hkey := hrep_of_ne z hz hrz
          have := inv.cover z (st.rep e.1) hkey
          rw [hT] at this
          cases this
        · rw [if_neg hrz]
  · rename_i tbodies hT
    rw [ha, hb] at hT ⊢
    rw [lookupA_insertA] at hT
    rw [lookupA_foldl_insertA, lookupA_insertA]
    by_cases hz : z = st.rep e.1
    · have : st.rep z = st.rep e.1 := by rw [hz]; exact hra
      rw [if_pos this]
      by_cases hzt : z ∈ tbodies
      · rw [if_pos hzt]
      · rw [if_neg hzt, if_pos hz]
    · by_cases hrz : st.rep z = st.rep e.1
      · rw [if_pos hrz]
        have hkey := hrep_of_ne z hz hrz
        have hcov := inv.cover z (st.rep e.1) hkey
        have hzt : z ∈ tbodies := by
          split_ifs at hT with hab
          · obtain rfl : addS ((lookupA st.body2body1 (st.rep e.2)).getD [])
                (st.rep e.1) = tbodies := Option.some_inj.mp hT
            rw [mem_addS]
            rw [hab] at hcov
            exact Or.inl hcov
          · have htb : (lookupA st.body2body1 (st.rep e.1)).getD [] =
                tbodies := by rw [hT]; rfl
            rw [← htb]
            exact hcov
        rw [if_pos hzt]
      · rw [if_neg hrz]
        have hzt : z ∉ tbodies := by
          intro hzt
          -- members of the absorbed class all have representative rep e.1
          have hzrep : st.rep z = st.rep e.1 := by
            split_ifs at hT with hab
            · obtain rfl : addS ((lookupA st.body2body1 (st.rep e.2)).getD [])
                  (st.rep e.1) = tbodies := Option.some_inj.mp hT
              rw [mem_addS] at hzt
              rcases hzt with h | rfl
              · rw [hab]
                exact inv.members (st.rep e.2) z h hrb
              · exact hra
            · have htb : (lookupA st.body2body1 (st.rep e.1)).getD [] =
                  tbodies := by rw [hT]; rfl
              exact inv.members (st.rep e.1) z (htb ▸ hzt) hra
          exact hrz hzrep
        rw [if_neg hzt, if_neg hz]

theorem processMerge_rep {E : List (ℤ × ℤ)} {st : MergeGraphState}
    (inv : MergeInv E st) (e : ℤ × ℤ) (z : ℤ) :
    (processMerge st e).rep z =
      if st.rep z = st.rep e.1 then st.rep e.2 else st.rep z := by
  show (lookupA (processMerge st e).body1body2 z).getD z = _
  rw [processMerge_lookup_m inv e z]
  by_cases h : st.rep z = st.rep e.1
  · rw [if_pos h, if_pos h]
    rfl
  · rw [if_neg h, if_neg h]
    rfl

/-- Processing one more merge preserves the loop invariant. -/
theorem mergeInv_step {E : List (ℤ × ℤ)} {st : MergeGraphState}
    (inv : MergeInv E st) (e : ℤ × ℤ) :
    MergeInv (E ++ [e]) (processMerge st e) := by
  have hra : st.rep (st.rep e.1) = st.rep e.1 := rep_idem inv e.1
  have hrb : st.rep (st.rep e.2) = st.rep e.2 := rep_idem inv e.2
  have hrepz := processMerge_rep inv e
  have hlm := processMerge_lookup_m inv e
  have hmi := processMerge_mem_inv st e
  have hlab1 : labelIn (E ++ [e]) (st.rep e.1) := by
    cases h : lookupA st.body1body2 e.1 with
    | none =>
        rw [show st.rep e.1 = e.1 from by simp [MergeGraphState.rep, h]]
        exact labelIn_new1 E e
    | some w =>
        rw [show st.rep e.1 = w from by simp [MergeGraphState.rep, h]]
        exact labelIn_append (inv.keysIn e.1 w h).2
  have hlab2 : labelIn (E ++ [e]) (st.rep e.2) := by
    cases h : lookupA st.body1body2 e.2 with
    | none =>
        rw [show st.rep e.2 = e.2 from by simp [MergeGraphState.rep, h]]
        exact labelIn_new2 E e
    | some w =>
        rw [show st.rep e.2 = w from by simp [MergeGraphState.rep, h]]
        exact labelIn_append (inv.keysIn e.2 w h).2
  have hlabz : ∀ z, st.rep z = st.rep e.1 → labelIn (E ++ [e]) z := by
    intro z hz
    cases h : lookupA st.body1body2 z with
    | none =>
        rw [show z = st.rep e.1 from by
          simpa [MergeGraphState.rep, h] using hz]
        exact hlab1
    | some w => exact labelIn_append (inv.keysIn z w h).1
  constructor
  case fix =>
    intro x r hx
    rw [hlm x] at hx
    by_cases hcase : st.rep x = st.rep e.1
    · rw [if_pos hcase] at hx
      obtain rfl := Option.some_inj.mp hx
      rw [hrepz]
      by_cases hbb2 : st.rep (st.rep e.2) = st.rep e.1
      · rw [if_pos hbb2]
      · rw [if_neg hbb2]
        exact hrb
    · rw [if_neg hcase] at hx
      have hfix := inv.fix x r hx
      rw [hrepz]
      have hrx : st.rep x = r := by simp [MergeGraphState.rep, hx]
      have hrne : ¬ (st.rep r = st.rep e.1) := by
        rw [hfix]
        intro hre
        exact hcase (by rw [hrx, hre])
      rw [if_neg hrne]
      exact hfix
  case repConn =>
    intro x y
    rw [hrepz x, hrepz y, connectedE_append]
    have hx1 := inv.repConn x e.1
    have hy1 := inv.repConn y e.1
    have hx2 := inv.repConn x e.2
    have hy2 := inv.repConn y e.2
    have hxy := inv.repConn x y
    by_cases hx : st.rep x = st.rep e.1 <;>
      by_cases hy : st.rep y = st.rep e.1
    · rw [if_pos hx, if_pos hy]
      constructor
      · intro _
        exact Or.inl (hxy.mp (hx.trans hy.symm))
      · intro _
        rfl
    · rw [if_pos hx, if_neg hy]
      constructor
      · intro h
        exact Or.inr (Or.inl ⟨hx1.mp hx, connectedE_symm (hy2.mp h.symm)⟩)
      · rintro (h | ⟨h1, h2⟩ | ⟨h1, h2⟩)
        · exact absurd (by rw [← hxy.mpr h]; exact hx) hy
        · exact (hy2.mpr (connectedE_symm h2)).symm
        · exact absurd (hy1.mpr (connectedE_symm h2)) hy
    · rw [if_neg hx, if_pos hy]
      constructor
      · intro h
        exact Or.inr (Or.inr ⟨hx2.mp h, connectedE_symm (hy1.mp hy)⟩)
      · rintro (h | ⟨h1, h2⟩ | ⟨h1, h2⟩)
        · exact absurd (by rw [hxy.mpr h]; exact hy) hx
        · exact absurd (hx1.mpr h1) hx
        · exact hx2.mpr h1
    · rw [if_neg hx, if_neg hy]
      rw [hxy]
      constructor
      · exact Or.inl
      · rintro (h | ⟨h1, h2⟩ | ⟨h1, h2⟩)
        · exact h
        · exact absurd (hx1.mpr h1) hx
        · exact absurd (hy1.mpr (connectedE_symm h2)) hy
  case cover =>
    intro x r hx
    rw [hlm x] at hx
    rw [hmi]
    by_cases hcase : st.rep x = st.rep e.1
    · rw [if_pos hcase] at hx
      obtain rfl := Option.some_inj.mp hx
      left
      refine ⟨rfl, ?_⟩
      by_cases hxa : x = st.rep e.1
      · exact Or.inr (Or.inl hxa)
      · right
        right
        have hkey : lookupA st.body1body2 x = some (st.rep e.1) := by
          cases h2 : lookupA st.body1body2 x with
          | none =>
              exact absurd
                (by simpa [MergeGraphState.rep, h2] using hcase) hxa
          | some w =>
              rw [show w = st.rep e.1 from by
                simpa [MergeGraphState.rep, h2] using hcase]
        exact inv.cover x (st.rep e.1) hkey
    · rw [if_neg hcase] at hx
      have hold := inv.cover x r hx
      by_cases hr : r = st.rep e.2
      · left
        exact ⟨hr, Or.inl (hr ▸ hold)⟩
      · right
        exact ⟨hr, hold⟩
  case members =>
    intro r x hxm hrfix
    rw [hmi] at hxm
    rw [hrepz] at hrfix
    rw [hrepz]
    rcases hxm with ⟨hr, hset⟩ | ⟨hr, hset⟩
    · subst hr
      rcases hset with h | h | h
      · have hmem := inv.members (st.rep e.2) x h hrb
        by_cases hxa : st.rep x = st.rep e.1
        · rw [if_pos hxa]
        · rw [if_neg hxa]
          exact hmem
      · subst h
        rw [if_pos hra]
      · have hmem := inv.members (st.rep e.1) x h hra
        rw [if_pos hmem]
    · by_cases hrr : st.rep r = st.rep e.1
      · rw [if_pos hrr] at hrfix
        exact absurd hrfix.symm hr
      · rw [if_neg hrr] at hrfix
        have hmem := inv.members r x hset hrfix
        have hxne : ¬ (st.rep x = st.rep e.1) := by
          rw [hmem]
          intro h2
          apply hrr
          rw [h2]
          exact hra
        rw [if_neg hxne]
        exact hmem
  case keysIn =>
    intro x r hx
    rw [hlm x] at hx
    by_cases hcase : st.rep x = st.rep e.1
    · rw [if_pos hcase] at hx
      obtain rfl := Option.some_inj.mp hx
      exact ⟨hlabz x hcase, hlab2⟩
    · rw [if_neg hcase] at hx
      exact ⟨labelIn_append (inv.keysIn x r hx).1,
        labelIn_append (inv.keysIn x r hx).2⟩

theorem mergeInv_nil : MergeInv [] ⟨[], []⟩ := by
  constructor
  case fix =>
    intro x r hx
    simp [lookupA] at hx
  case repConn =>
    intro x y
    unfold MergeGraphState.rep
    simp only [lookupA, Option.getD_none]
    constructor
    · intro h
      rw [h]
      exact Relation.ReflTransGen.refl
    · intro h
      induction h with
      | refl => rfl
      | tail _ step _ =>
          rcases step with h2 | h2 <;> cases h2
  case cover =>
    intro x r hx
    simp [lookupA] at hx
  case members =>
    intro r x hx _
    simp [lookupA] at hx
  case keysIn =>
    intro x r hx
    simp [lookupA] at hx

theorem buildMergeMap_inv (E : List (ℤ × ℤ)) : MergeInv E (buildMergeMap E) := by
  induction E using List.reverseRecOn with
  | nil => exact mergeInv_nil
  | append_singleton E0 e ih =>
      unfold buildMergeMap at ih ⊢
      rw [List.foldl_append]
      exact mergeInv_step ih e

/-! ### The union-find comparison (spec side) and the final relabel -/

def ufFindAux (parent : List (ℤ × ℤ)) : ℕ → ℤ → ℤ
  | 0, x => x
  | fuel + 1, x =>
      match lookupA parent x with
      | none => x
      | some p => if p = x then x else ufFindAux parent fuel p

/-- Modelled from the spec: the `find` of a union-find structure whose
parent pointers always point to smaller labels (fuel-bounded walk to the
root). -/
def ufFind (parent : List (ℤ × ℤ)) (x : ℤ) : ℤ :=
  ufFindAux parent parent.length x

/-- Modelled from the spec: union where "the representative of each
component is the numerically smallest label": the smaller root becomes the
parent of the larger. -/
def ufUnion (parent : List (ℤ × ℤ)) (a b : ℤ) : List (ℤ × ℤ) :=
  let ra := ufFind parent a
  let rb := ufFind parent b
  if ra = rb then parent
  else if ra < rb then insertA parent rb ra
  else insertA parent ra rb

/-- Modelled from the spec: "collect candidate edges on the driver;
compute connected components via union-find.  Every component becomes one
representative label (numerically smallest)." -/
def ufSmallest (E : List (ℤ × ℤ)) (x : ℤ) : ℤ :=
  ufFind (E.foldl (fun p e => ufUnion p e.1 e.2) []) x

/-- One voxel of the `relabel` closure in `Segmentor.stitch`: add the
subvolume offset, reset the offset value itself to 0 (`labels[labels ==
offset] = 0`), then apply the broadcast merge map with identity
default. -/
def relabelVoxel (master : List (ℤ × ℤ)) (offset : ℤ) (v : ℤ) : ℤ :=
  let w := v + offset
  let w2 := if w = offset then 0 else w
  (lookupA master w2).getD w2

/-! ### The per-boundary-pair stitcher of `Segmentor.stitch`

A boundary pair is modelled as the list `vox` of voxel pairs
`(boundary1[z,y,x], boundary2[z,y,x])` in `ndenumerate` scan order, plus
the two label sets `eligible1`/`eligible2` found on the 1-voxel interface
plane (`numpy.unique(boundary1[z1:z2, y1:y2, x1:x2])` and the boundary2
counterpart). -/

def hard_lb : ℕ := 50

def liberal_lb : ℕ := 1000

/-- A vote: `body2body[...][key] += 1` with dict-of-counters semantics. -/
def dictIncr (d : List (ℤ × ℕ)) (k : ℤ) : List (ℤ × ℕ) :=
  match lookupA d k with
  | none => d ++ [(k, 1)]
  | some c => insertA d k (c + 1)

/-- The first-pass vote table for one label of boundary2: counts of each
boundary1 label co-occurring with it, skipping voxels where either side
is 0, in scan order. -/
def bodyDict2 (vox : List (ℤ × ℤ)) (b2 : ℤ) : List (ℤ × ℕ) :=
  vox.foldl
    (fun d p => if p.2 = b2 ∧ p.1 ≠ 0 ∧ p.2 ≠ 0 then dictIncr d p.1 else d)
    []

/-- The second-pass vote table for one label of boundary1. -/
def bodyDict1 (vox : List (ℤ × ℤ)) (b1 : ℤ) : List (ℤ × ℕ) :=
  vox.foldl
    (fun d p => if p.1 = b1 ∧ p.1 ≠ 0 ∧ p.2 ≠ 0 then dictIncr d p.2 else d)
    []

/-- The best-overlap loop of the stitcher: running
`(bodysave, max_val, total_val)` starting at `(-1, hard_lb, 0)`, updating
on a strictly larger count. -/
def findBest (bodydict : List (ℤ × ℕ)) : ℤ × ℕ × ℕ :=
  bodydict.foldl
    (fun acc kv =>
      let total_val := acc.2.2 + kv.2
      if kv.2 > acc.2.1 then (kv.1, kv.2, total_val)
      else (acc.1, acc.2.1, total_val))
    (-1, hard_lb, 0)

/-- `max_val / float(total_val) < conservative_overlap` with
`conservative_overlap = 0.90`, modelled as the exact comparison over ℚ
(interface-plane counts are far too small for float64 rounding to move a
ratio across 0.9). -/
def ratioLT (max_val total_val : ℕ) : Prop :=
  (max_val : ℚ) / (total_val : ℚ) < 9 / 10

instance (m t : ℕ) : Decidable (ratioLT m t) :=
  decidable_of_iff (t ≠ 0 → 10 * m < 9 * t) (by
    unfold ratioLT
    constructor
    · intro h
      rcases Nat.eq_zero_or_pos t with rfl | ht
      · norm_num
      · have h2 := h (Nat.pos_iff_ne_zero.mp ht)
        rw [div_lt_div_iff (by exact_mod_cast ht) (by norm_num :
          (0 : ℚ) < 10)]
        have h3 : ((10 * m : ℕ) : ℚ) < ((9 * t : ℕ) : ℚ) := by
          exact_mod_cast h2
        push_cast at h3
        linarith
    · intro h ht
      have ht2 : (0 : ℚ) < t := by exact_mod_cast Nat.pos_of_ne_zero ht
      rw [div_lt_div_iff ht2 (by norm_num : (0 : ℚ) < 10)] at h
      have h3 : ((10 * m : ℕ) : ℚ) < ((9 * t : ℕ) : ℚ) := by
        push_cast
        linarith
      exact_mod_cast h3)

/-- `max_val / float(total_val) > conservative_overlap`. -/
def ratioGT (max_val total_val : ℕ) : Prop :=
  (max_val : ℚ) / (total_val : ℚ) > 9 / 10

instance (m t : ℕ) : Decidable (ratioGT m t) :=
  decidable_of_iff (t ≠ 0 ∧ 9 * t < 10 * m) (by
    unfold ratioGT
    constructor
    · rintro ⟨ht, h⟩
      have ht2 : (0 : ℚ) < t := by exact_mod_cast Nat.pos_of_ne_zero ht
      rw [gt_iff_lt, div_lt_div_iff (by norm_num : (0 : ℚ) < 10) ht2]
      have h3 : ((9 * t : ℕ) : ℚ) < ((10 * m : ℕ) : ℚ) := by
        exact_mod_cast h
      push_cast at h3
      linarith
    · intro h
      rcases Nat.eq_zero_or_pos t with rfl | ht
      · rw [gt_iff_lt] at h
        norm_num at h
      · have ht2 : (0 : ℚ) < t := by exact_mod_cast ht
        rw [gt_iff_lt, div_lt_div_iff (by norm_num : (0 : ℚ) < 10) ht2]
          at h
        refine ⟨Nat.pos_iff_ne_zero.mp ht, ?_⟩
        have h3 : ((9 * t : ℕ) : ℚ) < ((10 * m : ℕ) : ℚ) := by
          push_cast
          linarith
        exact_mod_cast h3)

/-- `numpy.unique`: sorted distinct values. -/
def npUnique (l : List ℤ) : List ℤ :=
  l.dedup.insertionSort (· ≤ ·)

/-- `mutual_list[bodysave][body2] = max_val` (creating the inner dict when
absent). -/
def mutualInsert (ml : List (ℤ × List (ℤ × ℕ))) (a b : ℤ) (v : ℕ) :
    List (ℤ × List (ℤ × ℕ)) :=
  insertA ml a (insertA ((lookupA ml a).getD []) b v)

/-- The three accumulators of the stitcher: `merge_list`, `mutual_list`,
`retired_list` (the prune counters are logging only and are omitted). -/
structure Pass1Out where
  merge_list : List (ℤ × ℤ)
  mutual_list : List (ℤ × List (ℤ × ℕ))
  retired_list : List (ℤ × ℤ)

/-- One iteration of the first `for body2, bodydict in body2body.items()`
loop of the stitcher. -/
def pass1Step (stitch_mode : ℕ) (vox : List (ℤ × ℤ)) (eligible2 : List ℤ)
    (out : Pass1Out) (body2 : ℤ) : Pass1Out :=
  if body2 ∈ eligible2 then
    let best := findBest (bodyDict2 vox body2)
    if best.1 = -1 then out
    else if stitch_mode = 1 ∧ ratioLT best.2.1 best.2.2 then out
    else if stitch_mode = 3 ∧ ratioGT best.2.1 best.2.2 ∧
        best.2.1 > liberal_lb then
      { out with merge_list := out.merge_list ++ [(best.1, body2)],
                 retired_list := out.retired_list ++ [(best.1, body2)] }
    else
      { out with mutual_list := mutualInsert out.mutual_list best.1 body2
                   best.2.1 }
  else out

/-- The first pass of the stitcher over the (sorted, nonzero) labels of
boundary2; with stitch mode 0 the vote dict is never built, so the loop
body runs for no label. -/
def pass1 (stitch_mode : ℕ) (vox : List (ℤ × ℤ)) (eligible2 : List ℤ) :
    Pass1Out :=
  let label2_bodies := npUnique (vox.map Prod.snd)
  let bodies := if stitch_mode > 0 then
      label2_bodies.filter (fun b => b ≠ 0) else []
  bodies.foldl (pass1Step stitch_mode vox eligible2) ⟨[], [], []⟩

/-- One iteration of the second `for body1, bodydict in body2body.items()`
loop of the stitcher. -/
def pass2Step (stitch_mode : ℕ) (vox : List (ℤ × ℤ)) (eligible1 : List ℤ)
    (p1 : Pass1Out) (ml : List (ℤ × ℤ)) (body1 : ℤ) : List (ℤ × ℤ) :=
  if body1 ∈ eligible1 then
    let best := findBest (bodyDict1 vox body1)
    if (body1, best.1) ∈ p1.retired_list then ml
    else if best.1 = -1 then ml
    else if stitch_mode = 1 ∧ ratioLT best.2.1 best.2.2 then ml
    else if stitch_mode = 3 ∧ ratioGT best.2.1 best.2.2 ∧
        best.2.1 > liberal_lb then
      ml ++ [(body1, best.1)]
    else
      match lookupA p1.mutual_list body1 with
      | some partners =>
          if partners.any (fun kv => kv.1 = best.1) then
            ml ++ [(body1, best.1)]
          else ml
      | none => ml
  else ml

/-- The second pass, appending to the first pass's merge list. -/
def pass2 (stitch_mode : ℕ) (vox : List (ℤ × ℤ)) (eligible1 : List ℤ)
    (p1 : Pass1Out) : List (ℤ × ℤ) :=
  let label1_bodies := npUnique (vox.map Prod.fst)
  let bodies := if stitch_mode > 0 then
      label1_bodies.filter (fun b => b ≠ 0) else []
  bodies.foldl (pass2Step stitch_mode vox eligible1 p1) p1.merge_list

/-- The complete per-boundary-pair merge list of the stitcher (before the
subvolume offsets are added to its entries). -/
def mergeListFor (stitch_mode : ℕ) (vox : List (ℤ × ℤ))
    (eligible1 eligible2 : List ℤ) : List (ℤ × ℤ) :=
  pass2 stitch_mode vox eligible1 (pass1 stitch_mode vox eligible2)

/-- What one second-pass iteration appends (if anything): used to reason
about `pass2Step`. -/
def pass2Emit (stitch_mode : ℕ) (vox : List (ℤ × ℤ)) (eligible1 : List ℤ)
    (p1 : Pass1Out) (body1 : ℤ) : List (ℤ × ℤ) :=
  if body1 ∈ eligible1 then
    let best := findBest (bodyDict1 vox body1)
    if (body1, best.1) ∈ p1.retired_list then []
    else if best.1 = -1 then []
    else if stitch_mode = 1 ∧ ratioLT best.2.1 best.2.2 then []
    else if stitch_mode = 3 ∧ ratioGT best.2.1 best.2.2 ∧
        best.2.1 > liberal_lb then
      [(body1, best.1)]
    else
      match lookupA p1.mutual_list body1 with
      | some partners =>
          if partners.any (fun kv => kv.1 = best.1) then [(body1, best.1)]
          else []
      | none => []
  else []

theorem pass2Step_eq (stitch_mode : ℕ) (vox : List (ℤ × ℤ))
    (eligible1 : List ℤ) (p1 : Pass1Out) (ml : List (ℤ × ℤ)) (body1 : ℤ) :
    pass2Step stitch_mode vox eligible1 p1 ml body1 =
      ml ++ pass2Emit stitch_mode vox eligible1 p1 body1 := by
  unfold pass2Step pass2Emit
  rcases hlk : lookupA p1.mutual_list body1 with _ | partners <;>
    simp only [hlk] <;> split_ifs <;> simp

theorem foldl_append_mem {α : Type} (step : List α → ℤ → List α)
    (emit : ℤ → List α) (hstep : ∀ ml b, step ml b = ml ++ emit b)
    (bodies : List ℤ) (ml0 : List α) (x : α) :
    x ∈ bodies.foldl step ml0 ↔ x ∈ ml0 ∨ ∃ b ∈ bodies, x ∈ emit b := by
  induction bodies generalizing ml0 with
  | nil => simp
  | cons b bs ih =>
      simp only [List.foldl_cons]
      rw [hstep, ih]
      constructor
      · rintro (h | h)
        · rcases List.mem_append.mp h with h | h
          · exact Or.inl h
          · exact Or.inr ⟨b, List.mem_cons_self _ _, h⟩
        · obtain ⟨c, hc, hx⟩ := h
          exact Or.inr ⟨c, List.mem_cons_of_mem _ hc, hx⟩
      · rintro (h | ⟨c, hc, hx⟩)
        · exact Or.inl (List.mem_append_left _ h)
        · rcases List.mem_cons.mp hc with rfl | hc
          · exact Or.inl (List.mem_append_right _ hx)
          · exact Or.inr ⟨c, hc, hx⟩

/-- `bodysave` either stayed `-1` or is a key of the vote dict. -/
theorem findBest_fst (d : List (ℤ × ℕ)) :
    (findBest d).1 = -1 ∨ ∃ c, ((findBest d).1, c) ∈ d := by
  unfold findBest
  have haux : ∀ (l : List (ℤ × ℕ)) (acc : ℤ × ℕ × ℕ),
      (l.foldl (fun acc kv =>
        let total_val := acc.2.2 + kv.2
        if kv.2 > acc.2.1 then (kv.1, kv.2, total_val)
        else (acc.1, acc.2.1, total_val)) acc).1 = acc.1 ∨
      ∃ c, ((l.foldl (fun acc kv =>
        let total_val := acc.2.2 + kv.2
        if kv.2 > acc.2.1 then (kv.1, kv.2, total_val)
        else (acc.1, acc.2.1, total_val)) acc).1, c) ∈ l := by
    intro l
    induction l with
    | nil =>
        intro acc
        exact Or.inl rfl
    | cons kv rest ih =>
        intro acc
        simp only [List.foldl_cons]
        rcases ih (if kv.2 > acc.2.1 then (kv.1, kv.2, acc.2.2 + kv.2)
            else (acc.1, acc.2.1, acc.2.2 + kv.2)) with h | ⟨c, hc⟩
        · by_cases hgt : kv.2 > acc.2.1
          · right
            refine ⟨kv.2, ?_⟩
            rw [h, if_pos hgt]
            exact List.mem_cons_self _ _
          · left
            rw [h, if_neg hgt]
        · right
          exact ⟨c, List.mem_cons_of_mem _ hc⟩
  rcases haux d (-1, hard_lb, 0) with h | h
  · exact Or.inl h
  · exact Or.inr h

theorem keys_insertA {β : Type} {l : List (ℤ × β)} {k : ℤ} {v : β}
    {kv : ℤ × β} (h : kv ∈ insertA l k v) :
    kv.1 = k ∨ ∃ kv2 ∈ l, kv.1 = kv2.1 := by
  unfold insertA at h
  split_ifs at h
  · rw [List.mem_map] at h
    obtain ⟨kv2, hkv2, rfl⟩ := h
    by_cases hk : kv2.1 = k
    · rw [if_pos hk]
      exact Or.inl rfl
    · rw [if_neg hk]
      exact Or.inr ⟨kv2, hkv2, rfl⟩
  · rcases List.mem_append.mp h with h | h
    · exact Or.inr ⟨kv, h, rfl⟩
    · rw [List.mem_singleton.mp h]
      exact Or.inl rfl

theorem keys_dictIncr {d : List (ℤ × ℕ)} {k : ℤ} {kv : ℤ × ℕ}
    (h : kv ∈ dictIncr d k) : kv.1 = k ∨ ∃ kv2 ∈ d, kv.1 = kv2.1 := by
  unfold dictIncr at h
  split at h
  · rcases List.mem_append.mp h with h | h
    · exact Or.inr ⟨kv, h, rfl⟩
    · rw [List.mem_singleton.mp h]
      exact Or.inl rfl
  · exact keys_insertA h

theorem bodyDict2_keys_ne_zero (vox : List (ℤ × ℤ)) (b2 : ℤ) :
    ∀ kc ∈ bodyDict2 vox b2, kc.1 ≠ 0 := by
  unfold bodyDict2
  have haux : ∀ (l : List (ℤ × ℤ)) (d0 : List (ℤ × ℕ)),
      (∀ kc ∈ d0, kc.1 ≠ 0) →
      ∀ kc ∈ l.foldl (fun d p =>
        if p.2 = b2 ∧ p.1 ≠ 0 ∧ p.2 ≠ 0 then dictIncr d p.1 else d) d0,
        kc.1 ≠ 0 := by
    intro l
    induction l with
    | nil => intro d0 h0; exact h0
    | cons p rest ih =>
        intro d0 h0
        simp only [List.foldl_cons]
        refine ih _ ?_
        split_ifs with hc
        · intro kc hkc
          rcases keys_dictIncr hkc with h | ⟨kv2, hkv2, heq⟩
          · rw [h]
            exact hc.2.1
          · rw [heq]
            exact h0 kv2 hkv2
        · exact h0
  exact haux vox [] (by intro kc h; cases h)

theorem bodyDict1_keys_ne_zero (vox : List (ℤ × ℤ)) (b1 : ℤ) :
    ∀ kc ∈ bodyDict1 vox b1, kc.1 ≠ 0 := by
  unfold bodyDict1
  have haux : ∀ (l : List (ℤ × ℤ)) (d0 : List (ℤ × ℕ)),
      (∀ kc ∈ d0, kc.1 ≠ 0) →
      ∀ kc ∈ l.foldl (fun d p =>
        if p.1 = b1 ∧ p.1 ≠ 0 ∧ p.2 ≠ 0 then dictIncr d p.2 else d) d0,
        kc.1 ≠ 0 := by
    intro l
    induction l with
    | nil => intro d0 h0; exact h0
    | cons p rest ih =>
        intro d0 h0
        simp only [List.foldl_cons]
        refine ih _ ?_
        split_ifs with hc
        · intro kc hkc
          rcases keys_dictIncr hkc with h | ⟨kv2, hkv2, heq⟩
          · rw [h]
            exact hc.2.2
          · rw [heq]
            exact h0 kv2 hkv2
        · exact h0
  exact haux vox [] (by intro kc h; cases h)

theorem bodyDict2_zero (vox : List (ℤ × ℤ)) : bodyDict2 vox 0 = [] := by
  unfold bodyDict2
  have haux : ∀ (l : List (ℤ × ℤ)),
      l.foldl (fun d p =>
        if p.2 = 0 ∧ p.1 ≠ 0 ∧ p.2 ≠ 0 then dictIncr d p.1 else d) [] = [] := by
    intro l
    induction l with
    | nil => rfl
    | cons p rest ih =>
        simp only [List.foldl_cons]
        rw [if_neg (fun hc => hc.2.2 hc.1)]
        exact ih
  exact haux vox

theorem bodyDict1_zero (vox : List (ℤ × ℤ)) : bodyDict1 vox 0 = [] := by
  unfold bodyDict1
  have haux : ∀ (l : List (ℤ × ℤ)),
      l.foldl (fun d p =>
        if p.1 = 0 ∧ p.1 ≠ 0 ∧ p.2 ≠ 0 then dictIncr d p.2 else d) [] = [] := by
    intro l
    induction l with
    | nil => rfl
    | cons p rest ih =>
        simp only [List.foldl_cons]
        rw [if_neg (fun hc => hc.2.1 hc.1)]
        exact ih
  exact haux vox

/-- `bodysave in mutual_list and body2 in mutual_list[bodysave]`: the
membership test of the second stitcher pass. -/
def mutualMem (ml : List (ℤ × List (ℤ × ℕ))) (a c : ℤ) : Bool :=
  ((lookupA ml a).getD []).any (fun kv => kv.1 = c)

theorem any_insertA {β : Type} (l : List (ℤ × β)) (k : ℤ) (v : β) (c : ℤ) :
    (insertA l k v).any (fun kv => kv.1 = c) = true ↔
      c = k ∨ l.any (fun kv => kv.1 = c) = true := by
  unfold insertA
  by_cases hany : l.any (fun kv => kv.1 = k) = true
  · rw [if_pos hany]
    constructor
    · intro h
      right
      rw [List.any_eq_true] at h ⊢
      obtain ⟨kv, hkv, hc⟩ := h
      rw [List.mem_map] at hkv
      obtain ⟨kv2, hkv2, rfl⟩ := hkv
      by_cases hk : kv2.1 = k
      · rw [if_pos hk] at hc
        refine ⟨kv2, hkv2, ?_⟩
        simp only [decide_eq_true_eq] at hc ⊢
        rw [hk]
        exact hc
      · rw [if_neg hk] at hc
        exact ⟨kv2, hkv2, hc⟩
    · intro h
      rw [List.any_eq_true]
      have h2 : l.any (fun kv => kv.1 = c) = true := by
        rcases h with rfl | h
        · exact hany
        · exact h
      rw [List.any_eq_true] at h2
      obtain ⟨kv, hkv, hc⟩ := h2
      by_cases hk : kv.1 = k
      · refine ⟨(k, v), List.mem_map.mpr ⟨kv, hkv, by rw [if_pos hk]⟩, ?_⟩
        simp only [decide_eq_true_eq] at hc ⊢
        rw [← hk]
        exact hc
      · exact ⟨kv, List.mem_map.mpr ⟨kv, hkv, by rw [if_neg hk]⟩, hc⟩
  · rw [if_neg hany]
    simp only [List.any_append, List.any_cons, List.any_nil, Bool.or_false,
      Bool.or_eq_true, decide_eq_true_eq]
    constructor
    · rintro (h | h)
      · exact Or.inr h
      · exact Or.inl h.symm
    · rintro (h | h)
      · exact Or.inr h.symm
      · exact Or.inl h

theorem mutualMem_insert (ml : List (ℤ × List (ℤ × ℕ))) (a2 b2 : ℤ)
    (v : ℕ) (a c : ℤ) :
    mutualMem (mutualInsert ml a2 b2 v) a c = true ↔
      (a = a2 ∧ c = b2) ∨ mutualMem ml a c = true := by
  unfold mutualMem mutualInsert
  rw [lookupA_insertA]
  by_cases ha : a = a2
  · rw [if_pos ha, Option.getD_some, any_insertA]
    subst ha
    constructor
    · rintro (h | h)
      · exact Or.inl ⟨rfl, h⟩
      · exact Or.inr h
    · rintro (⟨-, h⟩ | h)
      · exact Or.inl h
      · exact Or.inr h
  · rw [if_neg ha]
    constructor
    · intro h
      exact Or.inr h
    · rintro (⟨h, -⟩ | h)
      · exact absurd h ha
      · exact h

/-- One conservative-mode first-pass iteration: the merge and retired
lists are untouched, and the mutual list gains exactly the pair
(best counterpart, body2) when the gates pass. -/
theorem pass1Step_mode1 (vox : List (ℤ × ℤ)) (eligible2 : List ℤ)
    (out : Pass1Out) (body2 : ℤ) :
    (pass1Step 1 vox eligible2 out body2).merge_list = out.merge_list ∧
    (pass1Step 1 vox eligible2 out body2).retired_list = out.retired_list ∧
    ∀ a c,
      mutualMem (pass1Step 1 vox eligible2 out body2).mutual_list a c
          = true ↔
        (mutualMem out.mutual_list a c = true ∨
         (c = body2 ∧ body2 ∈ eligible2 ∧
          (findBest (bodyDict2 vox body2)).1 = a ∧ a ≠ -1 ∧
          ¬ ratioLT (findBest (bodyDict2 vox body2)).2.1
            (findBest (bodyDict2 vox body2)).2.2)) := by
  unfold pass1Step
  by_cases he : body2 ∈ eligible2
  · rw [if_pos he]
    by_cases hm1 : (findBest (bodyDict2 vox body2)).1 = -1
    · rw [if_pos hm1]
      refine ⟨rfl, rfl, fun a c => ?_⟩
      constructor
      · exact Or.inl
      · rintro (h | ⟨-, -, hfa, hne, -⟩)
        · exact h
        · exact absurd (hfa ▸ hm1) hne
    · rw [if_neg hm1]
      by_cases hrl : (1 : ℕ) = 1 ∧
          ratioLT (findBest (bodyDict2 vox body2)).2.1
            (findBest (bodyDict2 vox body2)).2.2
      · rw [if_pos hrl]
        refine ⟨rfl, rfl, fun a c => ?_⟩
        constructor
        · exact Or.inl
        · rintro (h | ⟨-, -, -, -, hnr⟩)
          · exact h
          · exact absurd hrl.2 hnr
      · rw [if_neg hrl, if_neg (fun hc => absurd hc.1 (by norm_num) :
            ¬ ((1 : ℕ) = 3 ∧ ratioGT (findBest (bodyDict2 vox body2)).2.1
                (findBest (bodyDict2 vox body2)).2.2 ∧
              (findBest (bodyDict2 vox body2)).2.1 > liberal_lb))]
        refine ⟨rfl, rfl, fun a c => ?_⟩
        have hnr : ¬ ratioLT (findBest (bodyDict2 vox body2)).2.1
            (findBest (bodyDict2 vox body2)).2.2 :=
          fun hr => hrl ⟨rfl, hr⟩
        rw [show ({ out with
              mutual_list := mutualInsert out.mutual_list
                (findBest (bodyDict2 vox body2)).1 body2
                (findBest (bodyDict2 vox body2)).2.1 } : Pass1Out).mutual_list
            = mutualInsert out.mutual_list
                (findBest (bodyDict2 vox body2)).1 body2
                (findBest (bodyDict2 vox body2)).2.1 from rfl,
          mutualMem_insert]
        constructor
        · rintro (⟨ha, hc⟩ | h)
          · refine Or.inr ⟨hc, he, ha.symm, ?_, hnr⟩
            intro h0
            exact hm1 (ha ▸ h0)
          · exact Or.inl h
        · rintro (h | ⟨hc, -, hfa, -, -⟩)
          · exact Or.inr h
          · exact Or.inl ⟨hfa.symm, hc⟩
  · rw [if_neg he]
    refine ⟨rfl, rfl, fun a c => ?_⟩
    constructor
    · exact Or.inl
    · rintro (h | ⟨-, he2, -⟩)
      · exact h
      · exact absurd he2 he

/-- C3 counterexample: for the single candidate edge `(1, 2)` the final
remapping built by the `body1body2`/`body2body1` loop sends label 1 to 2
(the second endpoint), whereas union-find with the numerically smallest
representative sends both labels to 1; so the loop does not compute the
smallest-label representative the claim (and spec §4.S step 7) states. -/
theorem stitch_merge_map_counterexample :
    repCode [(1, 2)] 1 = 2 ∧ ufSmallest [(1, 2)] 1 = 1 ∧
    ¬ (∀ (E : List (ℤ × ℤ)) (x : ℤ), labelIn E x →
        repCode E x = ufSmallest E x) := by
  refine ⟨by decide, by decide, ?_⟩
  intro hall
  have h := hall [(1, 2)] 1
    ⟨(1, 2), List.mem_singleton_self _, Or.inl rfl⟩
  exact absurd h (by decide)

/-- C3 (amended): the final remapping built from the candidate merge edges
by the `body1body2`/`body2body1` loop maps two labels to the same final
label exactly when they are connected in the candidate-edge graph, and
maps every label to a label of its own connected component — a valid
union-find-style representative assignment, except that the
representative is determined by edge processing order (the second
endpoint of the final merge touching the component), not the numerically
smallest label of the component. -/
theorem stitch_merge_map_components (E : List (ℤ × ℤ)) (x y : ℤ) :
    (repCode E x = repCode E y ↔ connectedE E x y) ∧
    connectedE E x (repCode E x) := by
  have inv := buildMergeMap_inv E
  refine ⟨inv.repConn x y, ?_⟩
  exact (inv.repConn x ((buildMergeMap E).rep x)).mp (rep_idem inv x).symm

/-- The whole conservative-mode first pass, characterised: no merges, no
retirements, and the mutual list holds (a, c) exactly when c voted a as
its best counterpart with count above the hard threshold and ratio not
below 0.90. -/
theorem pass1_loop_mode1 (vox : List (ℤ × ℤ)) (eligible2 : List ℤ)
    (bodies : List ℤ) (out : Pass1Out) :
    (bodies.foldl (pass1Step 1 vox eligible2) out).merge_list
        = out.merge_list ∧
    (bodies.foldl (pass1Step 1 vox eligible2) out).retired_list
        = out.retired_list ∧
    ∀ a c,
      mutualMem (bodies.foldl (pass1Step 1 vox eligible2) out).mutual_list
          a c = true ↔
        (mutualMem out.mutual_list a c = true ∨
         (c ∈ bodies ∧ c ∈ eligible2 ∧
          (findBest (bodyDict2 vox c)).1 = a ∧ a ≠ -1 ∧
          ¬ ratioLT (findBest (bodyDict2 vox c)).2.1
            (findBest (bodyDict2 vox c)).2.2)) := by
  induction bodies generalizing out with
  | nil =>
      refine ⟨rfl, rfl, fun a c => ?_⟩
      simp
  | cons b bs ih =>
      simp only [List.foldl_cons]
      obtain ⟨ihm, ihr, ihmu⟩ := ih (pass1Step 1 vox eligible2 out b)
      obtain ⟨hsm, hsr, hsmu⟩ := pass1Step_mode1 vox eligible2 out b
      refine ⟨ihm.trans hsm, ihr.trans hsr, fun a c => ?_⟩
      rw [ihmu a c, hsmu a c]
      constructor
      · rintro ((h | ⟨rfl, hcond⟩) | ⟨hcb, hcond⟩)
        · exact Or.inl h
        · exact Or.inr ⟨List.mem_cons_self _ _, hcond⟩
        · exact Or.inr ⟨List.mem_cons_of_mem _ hcb, hcond⟩
      · rintro (h | ⟨hcb, hcond⟩)
        · exact Or.inl (Or.inl h)
        · rcases List.mem_cons.mp hcb with rfl | hcb
          · exact Or.inl (Or.inr ⟨rfl, hcond⟩)
          · exact Or.inr ⟨hcb, hcond⟩

/-- One conservative-mode second-pass iteration with an empty retired
list emits (body1, best counterpart) exactly when the gates pass and the
pair sits in the mutual list. -/
theorem pass2Emit_mode1_mem (vox : List (ℤ × ℤ)) (eligible1 : List ℤ)
    (p1 : Pass1Out) (b : ℤ) (x : ℤ × ℤ) (hret : p1.retired_list = []) :
    x ∈ pass2Emit 1 vox eligible1 p1 b ↔
      (b ∈ eligible1 ∧ x = (b, (findBest (bodyDict1 vox b)).1) ∧
       (findBest (bodyDict1 vox b)).1 ≠ -1 ∧
       ¬ ratioLT (findBest (bodyDict1 vox b)).2.1
         (findBest (bodyDict1 vox b)).2.2 ∧
       mutualMem p1.mutual_list b (findBest (bodyDict1 vox b)).1
         = true) := by
  unfold pass2Emit
  by_cases he : b ∈ eligible1
  · rw [if_pos he, hret, if_neg (List.not_mem_nil _)]
    by_cases hm1 : (findBest (bodyDict1 vox b)).1 = -1
    · rw [if_pos hm1]
      constructor
      · intro h
        cases h
      · rintro ⟨-, -, hne, -⟩
        exact absurd hm1 hne
    · rw [if_neg hm1]
      by_cases hrl : (1 : ℕ) = 1 ∧
          ratioLT (findBest (bodyDict1 vox b)).2.1
            (findBest (bodyDict1 vox b)).2.2
      · rw [if_pos hrl]
        constructor
        · intro h
          cases h
        · rintro ⟨-, -, -, hnr, -⟩
          exact absurd hrl.2 hnr
      · rw [if_neg hrl, if_neg (fun hc => absurd hc.1 (by norm_num) :
            ¬ ((1 : ℕ) = 3 ∧ ratioGT (findBest (bodyDict1 vox b)).2.1
                (findBest (bodyDict1 vox b)).2.2 ∧
              (findBest (bodyDict1 vox b)).2.1 > liberal_lb))]
        have hnr : ¬ ratioLT (findBest (bodyDict1 vox b)).2.1
            (findBest (bodyDict1 vox b)).2.2 :=
          fun hr => hrl ⟨rfl, hr⟩
        unfold mutualMem
        rcases hlk : lookupA p1.mutual_list b with _ | partners
        · simp only [hlk, Option.getD_none]
          constructor
          · intro h
            cases h
          · rintro ⟨-, -, -, -, hmm⟩
            simp at hmm
        · simp only [hlk, Option.getD_some]
          split_ifs with hany
          · simp only [List.mem_singleton]
            constructor
            · intro h
              exact ⟨he, h, hm1, hnr, hany⟩
            · rintro ⟨-, hx, -⟩
              exact hx
          · constructor
            · intro h
              cases h
            · rintro ⟨-, -, -, -, hmm⟩
              exact absurd hmm hany
  · rw [if_neg he]
    constructor
    · intro h
      cases h
    · rintro ⟨he2, -⟩
      exact absurd he2 he

/-- Anything a second-pass iteration (of any mode) emits is the pair
(body1, best counterpart) with the counterpart above the hard
threshold. -/
theorem pass2Emit_mem_ne (stitch_mode : ℕ) (vox : List (ℤ × ℤ))
    (eligible1 : List ℤ) (p1 : Pass1Out) (b : ℤ) (x : ℤ × ℤ)
    (h : x ∈ pass2Emit stitch_mode vox eligible1 p1 b) :
    x = (b, (findBest (bodyDict1 vox b)).1) ∧
    (findBest (bodyDict1 vox b)).1 ≠ -1 := by
  unfold pass2Emit at h
  by_cases he : b ∈ eligible1
  · rw [if_pos he] at h
    dsimp only at h
    split_ifs at h with h1 h2 h3 h4
    · cases h
    · cases h
    · cases h
    · exact ⟨List.mem_singleton.mp h, h2⟩
    · rcases hlk : lookupA p1.mutual_list b with _ | partners <;>
        simp only [hlk] at h
      · cases h
      · split_ifs at h
        · exact ⟨List.mem_singleton.mp h, h2⟩
        · cases h
  · rw [if_neg he] at h
    cases h

/-- C4 (amended): in conservative stitch mode (stitch_mode = 1) an edge
(L, L2) is emitted iff L passes the second-pass gates (eligible on the
interface plane, best counterpart L2 above the hard 50-voxel threshold,
best/total not below 0.90) AND the match is mutual: L2 passed the same
first-pass gates on its side with L as its own best counterpart.  Ratio
at-least-0.90 alone is not sufficient, contrary to the claim. -/
theorem stitch_conservative_mutual (vox : List (ℤ × ℤ))
    (eligible1 eligible2 : List ℤ) (L L2 : ℤ) :
    (L, L2) ∈ mergeListFor 1 vox eligible1 eligible2 ↔
      ((L ∈ (npUnique (vox.map Prod.fst)).filter (fun b => b ≠ 0) ∧
        L ∈ eligible1 ∧ (findBest (bodyDict1 vox L)).1 = L2 ∧ L2 ≠ -1 ∧
        ¬ ratioLT (findBest (bodyDict1 vox L)).2.1
          (findBest (bodyDict1 vox L)).2.2) ∧
       (L2 ∈ (npUnique (vox.map Prod.snd)).filter (fun b => b ≠ 0) ∧
        L2 ∈ eligible2 ∧ (findBest (bodyDict2 vox L2)).1 = L ∧ L ≠ -1 ∧
        ¬ ratioLT (findBest (bodyDict2 vox L2)).2.1
          (findBest (bodyDict2 vox L2)).2.2)) := by
  obtain ⟨hm, hr, hmu⟩ := pass1_loop_mode1 vox eligible2
    ((npUnique (vox.map Prod.snd)).filter (fun b => b ≠ 0)) ⟨[], [], []⟩
  have hp1eq : pass1 1 vox eligible2 =
      ((npUnique (vox.map Prod.snd)).filter (fun b => b ≠ 0)).foldl
        (pass1Step 1 vox eligible2) ⟨[], [], []⟩ := by
    unfold pass1
    norm_num
  have hmerge : (pass1 1 vox eligible2).merge_list = [] := by
    rw [hp1eq]
    exact hm
  have hret : (pass1 1 vox eligible2).retired_list = [] := by
    rw [hp1eq]
    exact hr
  have hml : mergeListFor 1 vox eligible1 eligible2 =
      ((npUnique (vox.map Prod.fst)).filter (fun b => b ≠ 0)).foldl
        (pass2Step 1 vox eligible1 (pass1 1 vox eligible2))
        (pass1 1 vox eligible2).merge_list := by
    unfold mergeListFor pass2
    norm_num
  rw [hml, foldl_append_mem _ _
    (pass2Step_eq 1 vox eligible1 (pass1 1 vox eligible2)), hmerge]
  simp only [List.not_mem_nil, false_or]
  constructor
  · rintro ⟨b, hb, hx⟩
    rw [pass2Emit_mode1_mem vox eligible1 _ b _ hret] at hx
    obtain ⟨he1, hxeq, hne, hnr, hmm⟩ := hx
    rw [Prod.mk.injEq] at hxeq
    obtain ⟨rfl, hL2⟩ := hxeq
    rw [hp1eq, hmu L (findBest (bodyDict1 vox L)).1] at hmm
    rcases hmm with hmm | ⟨hc2, hc2e, hfb, hbne, hnr2⟩
    · exact Bool.noConfusion hmm
    · refine ⟨⟨hb, he1, hL2.symm, fun h0 => hne (hL2 ▸ h0), hnr⟩,
        ?_, ?_, ?_, hbne, ?_⟩
      · rw [hL2]
        exact hc2
      · rw [hL2]
        exact hc2e
      · rw [hL2]
        exact hfb
      · rw [hL2]
        exact hnr2
  · rintro ⟨⟨hL1, hLe1, hbest1, hL2ne, hnr1⟩, hL2u, hL2e2, hbest2, hLne,
      hnr2⟩
    refine ⟨L, hL1, ?_⟩
    rw [pass2Emit_mode1_mem vox eligible1 _ L _ hret]
    refine ⟨hLe1, by rw [hbest1], by rw [hbest1]; exact hL2ne, hnr1, ?_⟩
    rw [hbest1, hp1eq, hmu L L2]
    exact Or.inr ⟨hL2u, hL2e2, hbest2, hLne, hnr2⟩

def voxC : List (ℤ × ℤ) :=
  List.replicate 51 (5, 7) ++ List.replicate 459 (6, 7)

set_option maxRecDepth 40000 in
/-- C4 (counterexample): on a boundary pair where label 5 overlaps label
7 on 51 voxels (so 7 is its best counterpart, above the hard 50-voxel
threshold, with best/total = 1 ≥ 0.90) but label 6 overlaps 7 on 459
voxels, conservative mode emits no (5, 7) edge — 7's own best match is 6,
so the mutual-match requirement fails — refuting the claim that ratio
at-least-0.90 alone decides emission ("no further condition such as
mutuality is required"). -/
theorem stitch_conservative_counterexample :
    ((5 : ℤ), (7 : ℤ)) ∉ mergeListFor 1 voxC [5, 6] [7] ∧
    (findBest (bodyDict1 voxC 5)).1 = 7 ∧
    ¬ ratioLT (findBest (bodyDict1 voxC 5)).2.1
      (findBest (bodyDict1 voxC 5)).2.2 ∧
    ¬ (∀ (vox : List (ℤ × ℤ)) (eligible1 eligible2 : List ℤ) (L : ℤ),
        L ∈ (npUnique (vox.map Prod.fst)).filter (fun b => b ≠ 0) →
        L ∈ eligible1 →
        (findBest (bodyDict1 vox L)).1 ≠ -1 →
        ((L, (findBest (bodyDict1 vox L)).1) ∈
            mergeListFor 1 vox eligible1 eligible2 ↔
          ¬ ratioLT (findBest (bodyDict1 vox L)).2.1
            (findBest (bodyDict1 vox L)).2.2)) := by
  refine ⟨by decide, by decide, by decide, ?_⟩
  intro hall
  have h := hall voxC [5, 6] [7] 5 (by decide) (by decide) (by decide)
  have h2 := h.mpr (by decide)
  exact absurd h2 (by decide)

/-- Every edge the first pass puts on the merge list (any mode) has
nonzero endpoints: the second endpoint comes from the nonzero-filtered
label list and the first is a key of a vote dict, which skips 0. -/
theorem pass1_merge_ne_zero (stitch_mode : ℕ) (vox : List (ℤ × ℤ))
    (eligible2 : List ℤ) :
    ∀ ab ∈ (pass1 stitch_mode vox eligible2).merge_list,
      ab.1 ≠ 0 ∧ ab.2 ≠ 0 := by
  have haux : ∀ (bodies : List ℤ), (∀ b ∈ bodies, b ≠ 0) →
      ∀ (out : Pass1Out), (∀ ab ∈ out.merge_list, ab.1 ≠ 0 ∧ ab.2 ≠ 0) →
      ∀ ab ∈ (bodies.foldl (pass1Step stitch_mode vox eligible2)
        out).merge_list, ab.1 ≠ 0 ∧ ab.2 ≠ 0 := by
    intro bodies
    induction bodies with
    | nil =>
        intro _ out hout
        exact hout
    | cons b bs ih =>
        intro hb out hout
        simp only [List.foldl_cons]
        refine ih (fun c hc => hb c (List.mem_cons_of_mem _ hc)) _ ?_
        unfold pass1Step
        by_cases he : b ∈ eligible2
        · rw [if_pos he]
          dsimp only
          split_ifs with h2 h3 h4
          · exact hout
          · exact hout
          · intro ab hab
            rcases List.mem_append.mp hab with hab | hab
            · exact hout ab hab
            · rw [List.mem_singleton.mp hab]
              refine ⟨?_, hb b (List.mem_cons_self _ _)⟩
              rcases findBest_fst (bodyDict2 vox b) with h | ⟨c, hc⟩
              · exact absurd h h2
              · exact bodyDict2_keys_ne_zero vox b _ hc
          · exact hout
        · rw [if_neg he]
          exact hout
  intro ab hab
  refine haux _ ?_ ⟨[], [], []⟩ (fun ab h => absurd h (List.not_mem_nil _))
    ab hab
  intro b hb
  by_cases hs : stitch_mode > 0
  · rw [if_pos hs] at hb
    have h2 := List.mem_filter.mp hb
    simpa using h2.2
  · rw [if_neg hs] at hb
    exact absurd hb (List.not_mem_nil _)

/-- Every edge on the final per-pair merge list (any mode) has nonzero
endpoints. -/
theorem mergeListFor_ne_zero (stitch_mode : ℕ) (vox : List (ℤ × ℤ))
    (eligible1 eligible2 : List ℤ) (ab : ℤ × ℤ)
    (hab : ab ∈ mergeListFor stitch_mode vox eligible1 eligible2) :
    ab.1 ≠ 0 ∧ ab.2 ≠ 0 := by
  simp only [mergeListFor, pass2] at hab
  rw [foldl_append_mem _ _
    (pass2Step_eq stitch_mode vox eligible1 _)] at hab
  rcases hab with hab | ⟨b, hb, hx⟩
  · exact pass1_merge_ne_zero stitch_mode vox eligible2 ab hab
  · obtain ⟨hx1, hne⟩ := pass2Emit_mem_ne _ _ _ _ _ _ hx
    have hb0 : b ≠ 0 := by
      by_cases hs : stitch_mode > 0
      · rw [if_pos hs] at hb
        have h2 := List.mem_filter.mp hb
        simpa using h2.2
      · rw [if_neg hs] at hb
        exact absurd hb (List.not_mem_nil _)
    have hbest : (findBest (bodyDict1 vox b)).1 ≠ 0 := by
      rcases findBest_fst (bodyDict1 vox b) with h | ⟨c, hc⟩
      · exact absurd h hne
      · exact bodyDict1_keys_ne_zero vox b _ hc
    rw [hx1]
    exact ⟨hb0, hbest⟩

/-- If no merge edge touches label 0, the final relabel sends local label
0 to global 0 (not to the subvolume offset): `labels + offset` makes it
`offset`, `labels[labels == offset] = 0` resets it, and the broadcast map
has no key 0. -/
theorem relabelVoxel_zero (E : List (ℤ × ℤ)) (offset : ℤ)
    (hE : ∀ ab ∈ E, ab.1 ≠ 0 ∧ ab.2 ≠ 0) :
    relabelVoxel (buildMergeMap E).body1body2 offset 0 = 0 := by
  unfold relabelVoxel
  rw [zero_add]
  dsimp only
  rw [if_pos rfl]
  rcases h : lookupA (buildMergeMap E).body1body2 0 with _ | r
  · rfl
  · exfalso
    obtain ⟨⟨e, he, h0⟩, -⟩ := (buildMergeMap_inv E).keysIn 0 r h
    rcases h0 with h0 | h0
    · exact (hE e he).1 h0
    · exact (hE e he).2 h0

/-- C10: stitching preserves background.  (i) label 0 never receives or
casts an overlap vote: every key of either vote dict is nonzero and the
vote dict of label 0 is empty; (ii) consequently no candidate merge edge
(in any stitch mode) involves an offset background label: both endpoints
are nonzero, so adding the subvolume offsets never yields a bare offset
value; (iii) the final relabel maps a voxel with local label 0 to global
0, not to the subvolume offset. -/
theorem stitch_preserves_background :
    (∀ (vox : List (ℤ × ℤ)) (b : ℤ),
      (∀ kc ∈ bodyDict2 vox b, kc.1 ≠ 0) ∧ bodyDict2 vox 0 = [] ∧
      (∀ kc ∈ bodyDict1 vox b, kc.1 ≠ 0) ∧ bodyDict1 vox 0 = []) ∧
    (∀ (stitch_mode : ℕ) (vox : List (ℤ × ℤ))
        (eligible1 eligible2 : List ℤ) (ab : ℤ × ℤ),
      ab ∈ mergeListFor stitch_mode vox eligible1 eligible2 →
      ab.1 ≠ 0 ∧ ab.2 ≠ 0 ∧
      ∀ off1 off2 : ℤ, ab.1 + off1 ≠ off1 ∧ ab.2 + off2 ≠ off2) ∧
    (∀ (E : List (ℤ × ℤ)) (offset : ℤ),
      (∀ ab ∈ E, ab.1 ≠ 0 ∧ ab.2 ≠ 0) →
      relabelVoxel (buildMergeMap E).body1body2 offset 0 = 0) := by
  refine ⟨fun vox b => ⟨bodyDict2_keys_ne_zero vox b, bodyDict2_zero vox,
      bodyDict1_keys_ne_zero vox b, bodyDict1_zero vox⟩,
    fun m vox e1 e2 ab hab => ?_, relabelVoxel_zero⟩
  obtain ⟨h1, h2⟩ := mergeListFor_ne_zero m vox e1 e2 ab hab
  refine ⟨h1, h2, fun off1 off2 => ⟨?_, ?_⟩⟩
  · intro h
    exact h1 (by omega)
  · intro h
    exact h2 (by omega)

def voxW : List (ℤ × ℤ) := List.replicate 51 (1, 2)

set_option maxRecDepth 40000 in
theorem stitch_preserves_background_witness :
    (((1 : ℤ), (2 : ℤ)).1 ≠ 0 ∧ ((1 : ℤ), (2 : ℤ)).2 ≠ 0 ∧
      ∀ off1 off2 : ℤ, ((1 : ℤ), (2 : ℤ)).1 + off1 ≠ off1 ∧
        ((1 : ℤ), (2 : ℤ)).2 + off2 ≠ off2) ∧
    relabelVoxel (buildMergeMap [((1 : ℤ), (2 : ℤ))]).body1body2 7 0
      = 0 :=
  ⟨stitch_preserves_background.2.1 2 voxW [1] [2] (1, 2) (by decide),
   stitch_preserves_background.2.2 [(1, 2)] 7 (by decide)⟩

end Flyem
